import Mathlib

/-!
Verification of the NiMu risk-governance core: the relationship-graph builder
of src/risk_governance/data_fetchers/companies_house_fetcher.py and the
network analytics engine of src/risk_governance/detection/network_analyzer.py,
shallowly embedded in Lean 4.

Numeric values flow through an exact-fraction model of the Python float
pipeline: an integer numerator over a positive natural denominator, with an
integer-Newton square root standing in for the floating-point square root.
Every claim settled here depends only on control flow (which edges survive,
which dictionary entries exist, which branches raise) and on comparisons whose
outcome the exact model reproduces; none depends on the last-ulp value of a
float.
-/

set_option linter.unusedVariables false
set_option maxRecDepth 16384

namespace NiMu

/-! ### Exact-fraction number model -/

/-- An exact fraction: integer numerator over a positive natural denominator.
Fractions are not reduced; all comparisons are by cross-multiplication. -/
structure Q where
  num : Int
  den : Nat
  den_pos : 0 < den

instance : DecidableEq Q := fun a b =>
  decidable_of_iff (a.num = b.num ∧ a.den = b.den) (by cases a; cases b; simp_all)

def Q.ofInt (n : Int) : Q := ⟨n, 1, Nat.one_pos⟩

def Q.zero : Q := Q.ofInt 0

def gcdFuel : Nat → Nat → Nat → Nat
  | 0, a, _ => a
  | f + 1, a, b => if b = 0 then a else gcdFuel f b (a % b)

/-- Euclidean gcd with structural fuel (128 steps reach far beyond every
magnitude arising here), so the kernel can evaluate it. -/
def fastGcd (a b : Nat) : Nat := gcdFuel 128 a b

/-- Reduce a fraction by the gcd of numerator and denominator. The
divisibility is checked explicitly, so no arithmetic fact about the fuelled
gcd is assumed anywhere; reduction never changes the represented value. -/
def Q.norm (q : Q) : Q :=
  let g := fastGcd q.num.natAbs q.den
  if h : g ≠ 0 ∧ q.den % g = 0 ∧ q.num.natAbs % g = 0 then
    ⟨q.num.tdiv (g : Int), q.den / g,
     Nat.div_pos (Nat.le_of_dvd q.den_pos (Nat.dvd_of_mod_eq_zero h.2.1))
       (Nat.pos_of_ne_zero h.1)⟩
  else q

def Q.add (a b : Q) : Q :=
  Q.norm ⟨a.num * b.den + b.num * a.den, a.den * b.den, Nat.mul_pos a.den_pos b.den_pos⟩

def Q.sub (a b : Q) : Q :=
  Q.norm ⟨a.num * b.den - b.num * a.den, a.den * b.den, Nat.mul_pos a.den_pos b.den_pos⟩

def Q.mul (a b : Q) : Q :=
  Q.norm ⟨a.num * b.num, a.den * b.den, Nat.mul_pos a.den_pos b.den_pos⟩

/-- Division by a natural count; the count-zero case never arises at call
sites that Python reaches without raising, and is mapped to 0. -/
def Q.divNat (a : Q) (n : Nat) : Q :=
  if h : n = 0 then Q.zero
  else Q.norm ⟨a.num, a.den * n, Nat.mul_pos a.den_pos (Nat.pos_of_ne_zero h)⟩

/-- Division by a fraction; division by an exact zero is mapped to 0 (the
call sites below only divide by provably nonzero scales). -/
def Q.div (a b : Q) : Q :=
  if h : 0 < b.num then
    Q.norm ⟨a.num * b.den, a.den * b.num.toNat, Nat.mul_pos a.den_pos (by omega)⟩
  else if h2 : b.num < 0 then
    Q.norm ⟨-(a.num * b.den), a.den * (-b.num).toNat, Nat.mul_pos a.den_pos (by omega)⟩
  else Q.zero

/-- Strict comparison by cross-multiplication. -/
def Q.ltB (a b : Q) : Bool := decide (a.num * (b.den : Int) < b.num * (a.den : Int))

/-- Value equality (not structural equality) by cross-multiplication. -/
def Q.eqB (a b : Q) : Bool := decide (a.num * (b.den : Int) = b.num * (a.den : Int))

def Q.sum (l : List Q) : Q := l.foldl Q.add Q.zero

/-- Newton iteration step for the integer square root, structurally recursive
on fuel so that the kernel can evaluate it. -/
def isqrtAux (n : Nat) : Nat → Nat → Nat
  | 0, g => g
  | f + 1, g =>
    let g2 := (g + n / g) / 2
    if g ≤ g2 then g else isqrtAux n f g2

/-- Integer square root by Newton iteration (128 steps of fuel cover all
magnitudes arising here). -/
def isqrt (n : Nat) : Nat := if n ≤ 1 then n else isqrtAux n 128 n

/-- Model of the numpy float square root on exact fractions: the integer
square root of num * den over den. It is exact on perfect squares and a
floor approximation otherwise, mirroring floating-point inexactness; no
claim below depends on the value beyond its sign. Nonpositive input maps
to 0 (numpy would produce 0 or nan there; the pipeline only reaches this
function on nonnegative quadratic forms). -/
def Q.sqrtModel (a : Q) : Q :=
  if 0 < a.num then ⟨(isqrt (a.num.toNat * a.den) : Nat), a.den, a.den_pos⟩ else Q.zero

/-! ### Data model of the per-company bundles
(companies_house_fetcher.py, get_complete_company_data). Only the fields the
inference rules and analytics read are carried; a Python dict access with
.get is an Option-valued field. -/

/-- One entry of the officers list: officer.get('name') and the month and
year of officer.get('date_of_birth', {}). -/
structure Officer where
  name : Option String
  dob_month : Option Int
  dob_year : Option Int
deriving DecidableEq

/-- The registered_office_address record: address_line_1 and postal_code. -/
structure OfficeAddress where
  address_line_1 : Option String
  postal_code : Option String
deriving DecidableEq

/-- One entry of the PSC list: its kind tag and name. -/
structure PscRecord where
  kind : Option String
  name : Option String
deriving DecidableEq

/-- The company profile; company_number is the node identifier. -/
structure Profile where
  company_number : String
  date_of_creation : Option String
  registered_office_address : Option OfficeAddress
deriving DecidableEq

/-- One entity bundle as consumed by build_company_network: the profile may
be absent (the bundle then contributes nothing). -/
structure CompanyData where
  profile : Option Profile
  officers : List Officer
  psc : List PscRecord
deriving DecidableEq

/-! ### The undirected simple graph (networkx nx.Graph) -/

/-- The attribute dict of one edge. -/
structure EdgeData where
  relationship_type : String
  strength : Q
deriving DecidableEq

/-- The claim-relevant projection of a node attribute dict: incorporation
date, the names of the stored directors, and the stored address strings. -/
structure NodeData where
  incorporation_date : Option String
  directors : List String
  addresses : List String
deriving DecidableEq

/-- An nx.Graph: insertion-ordered node list with attributes, and an
undirected edge list holding at most one edge per unordered pair (re-adding
an edge overwrites its attributes, as in networkx). -/
structure Graph where
  nodes : List (String × NodeData)
  edges : List (String × String × EdgeData)
deriving DecidableEq

def Graph.empty : Graph := ⟨[], []⟩

def Graph.nodeNames (g : Graph) : List String := g.nodes.map (·.1)

def Graph.hasNode (g : Graph) (n : String) : Bool := g.nodes.any (·.1 == n)

/-- nx add_node: insert the node, or overwrite its attribute dict. -/
def Graph.addNode (g : Graph) (n : String) (d : NodeData) : Graph :=
  if g.hasNode n then
    ⟨g.nodes.map (fun p => if p.1 == n then (n, d) else p), g.edges⟩
  else ⟨g.nodes ++ [(n, d)], g.edges⟩

/-- nx add_edge creates missing endpoints with empty attribute dicts. -/
def Graph.ensureNode (g : Graph) (n : String) : Graph :=
  if g.hasNode n then g else ⟨g.nodes ++ [(n, ⟨none, [], []⟩)], g.edges⟩

/-- Whether the stored endpoint pair (a, b) is the unordered pair {u, v}. -/
def sameEdgeKey (a b u v : String) : Bool :=
  ((a == u) && (b == v)) || ((a == v) && (b == u))

/-- Update the attributes of the (unique) edge {u, v} if present, else append
the new edge; this is the observable behavior of nx add_edge on a simple
graph. -/
def updateEdges : List (String × String × EdgeData) → String → String → EdgeData →
    List (String × String × EdgeData)
  | [], u, v, d => [(u, v, d)]
  | e :: rest, u, v, d =>
    if sameEdgeKey e.1 e.2.1 u v then (e.1, e.2.1, d) :: rest
    else e :: updateEdges rest u v d

def Graph.addEdge (g : Graph) (u v : String) (d : EdgeData) : Graph :=
  let g1 := (g.ensureNode u).ensureNode v
  ⟨g1.nodes, updateEdges g1.edges u v d⟩

def lookupEdges : List (String × String × EdgeData) → String → String → Option EdgeData
  | [], _, _ => none
  | e :: rest, u, v =>
    if sameEdgeKey e.1 e.2.1 u v then some e.2.2 else lookupEdges rest u v

/-- The attribute dict of the edge {u, v}, if that edge exists. -/
def Graph.edgeLookup (g : Graph) (u v : String) : Option EdgeData :=
  lookupEdges g.edges u v

/-! ### Grouping companies by a shared key
(the dictionaries of _add_director_relationships, _add_address_relationships
and _add_psc_relationships: key to set of company numbers, insertion
ordered; the set is a duplicate-free list). -/

/-- Add one company number under a key: extend the existing set entry, or
append a new singleton entry. -/
def dictAdd {K : Type} [BEq K] :
    List (K × List String) → K → String → List (K × List String)
  | [], k, c => [(k, [c])]
  | e :: rest, k, c =>
    if e.1 == k then (e.1, if c ∈ e.2 then e.2 else e.2 ++ [c]) :: rest
    else e :: dictAdd rest k c

def groupLookup {K : Type} [BEq K] : List (K × List String) → K → List String
  | [], _ => []
  | e :: rest, k => if e.1 == k then e.2 else groupLookup rest k

/-- The grouping loop shared by the three inference rules: for each bundle
with a present profile, insert its company number under every key the rule
extracts from the bundle. -/
def groupsOf {K : Type} [BEq K] (f : CompanyData → Profile → List K)
    (companies_data : List CompanyData) : List (K × List String) :=
  companies_data.foldl (fun d cd =>
    match cd.profile with
    | none => d
    | some p => (f cd p).foldl (fun d0 k => dictAdd d0 k p.company_number) d) []

/-- All pairs (companies[i], companies[j]) with i < j, as enumerated by the
nested index loops of the source. -/
def allPairs : List String → List (String × String)
  | [] => []
  | x :: xs => (xs.map (fun y => (x, y))) ++ allPairs xs

/-- The edge-proposing pairs of every group of size at least 2. -/
def groupPairs {K : Type} : List (K × List String) → List (String × String)
  | [] => []
  | e :: rest => (if 1 < e.2.length then allPairs e.2 else []) ++ groupPairs rest

/-- Add one relationship edge per proposed pair, with the rule's fixed
attributes. -/
def addRelationshipEdges (g : Graph) (pairs : List (String × String)) (d : EdgeData) : Graph :=
  pairs.foldl (fun g0 p => g0.addEdge p.1 p.2 d) g

/-- director key = (name, birth month, birth year). -/
def director_key (o : Officer) : Option String × Option Int × Option Int :=
  (o.name, o.dob_month, o.dob_year)

/-- The director keys one bundle contributes. -/
def directorKeysOf (cd : CompanyData) (p : Profile) :
    List (Option String × Option Int × Option Int) :=
  cd.officers.map director_key

/-- address key = (address line 1, postal code), only for bundles whose
profile carries a registered office address. -/
def addressKeysOf (cd : CompanyData) (p : Profile) : List (Option String × Option String) :=
  match p.registered_office_address with
  | none => []
  | some a => [(a.address_line_1, a.postal_code)]

/-- PSC key = PSC name, only for PSC entries of kind corporate-entity. -/
def pscKeysOf (cd : CompanyData) (p : Profile) : List (Option String) :=
  (cd.psc.filter (fun r => r.kind == some "corporate-entity")).map (·.name)

def strength_director : Q := ⟨7, 10, by decide⟩
def strength_address : Q := ⟨6, 10, by decide⟩
def strength_psc : Q := ⟨8, 10, by decide⟩

def add_director_relationships (g : Graph) (companies_data : List CompanyData) : Graph :=
  addRelationshipEdges g (groupPairs (groupsOf directorKeysOf companies_data))
    ⟨"shared_director", strength_director⟩

def add_address_relationships (g : Graph) (companies_data : List CompanyData) : Graph :=
  addRelationshipEdges g (groupPairs (groupsOf addressKeysOf companies_data))
    ⟨"shared_address", strength_address⟩

def add_psc_relationships (g : Graph) (companies_data : List CompanyData) : Graph :=
  addRelationshipEdges g (groupPairs (groupsOf pscKeysOf companies_data))
    ⟨"shared_psc", strength_psc⟩

/-- The claim-relevant projection of the node attributes stored by
build_company_network. -/
def nodeDataOfBundle (cd : CompanyData) (p : Profile) : NodeData :=
  ⟨p.date_of_creation,
   cd.officers.filterMap (·.name),
   match p.registered_office_address with
   | none => []
   | some a => (a.address_line_1).toList⟩

/-- The node-adding phase of build_company_network: one node per bundle with
a present profile; a bundle with a null profile is skipped entirely. -/
def buildNodes (companies_data : List CompanyData) : Graph :=
  companies_data.foldl (fun g cd =>
    match cd.profile with
    | none => g
    | some p => g.addNode p.company_number (nodeDataOfBundle cd p)) Graph.empty

/-- build_company_network: one node per bundle with a present profile, then
the three relationship rules in order (shared director, shared address,
shared PSC). -/
def build_company_network (companies_data : List CompanyData) : Graph :=
  add_psc_relationships
    (add_address_relationships
      (add_director_relationships (buildNodes companies_data) companies_data)
      companies_data) companies_data

/-! ### Which pairs each rule proposes, stated directly on the input -/

/-- Whether company c has a bundle in the data whose profile is present,
whose company number is c, and which contributes key k under rule f. -/
def keyMatches {K : Type} [BEq K] (f : CompanyData → Profile → List K)
    (companies_data : List CompanyData) (k : K) (c : String) : Bool :=
  companies_data.any (fun cd =>
    match cd.profile with
    | none => false
    | some p => p.company_number == c && (f cd p).any (· == k))

/-- Whether rule f proposes an edge between u and v: they are distinct and
share some key contributed by some bundle. -/
def rule_proposes {K : Type} [BEq K] (f : CompanyData → Profile → List K)
    (companies_data : List CompanyData) (u v : String) : Bool :=
  (u != v) && companies_data.any (fun cd =>
    match cd.profile with
    | none => false
    | some p => (f cd p).any (fun k =>
        keyMatches f companies_data k u && keyMatches f companies_data k v))

def dir_proposes (companies_data : List CompanyData) (u v : String) : Bool :=
  rule_proposes directorKeysOf companies_data u v

def addr_proposes (companies_data : List CompanyData) (u v : String) : Bool :=
  rule_proposes addressKeysOf companies_data u v

def psc_proposes (companies_data : List CompanyData) (u v : String) : Bool :=
  rule_proposes pscKeysOf companies_data u v

/-- Whether the list of proposed pairs covers the unordered pair {u, v}. -/
def pairCovers (pairs : List (String × String)) (u v : String) : Bool :=
  pairs.any (fun p => sameEdgeKey p.1 p.2 u v)

/-- Well-formedness of a grouping dictionary: keys are pairwise distinct and
every stored set is a nonempty duplicate-free list. -/
def DictWF {K : Type} (d : List (K × List String)) : Prop :=
  d.Pairwise (fun a b => a.1 ≠ b.1) ∧ ∀ e ∈ d, e.2.Nodup ∧ e.2 ≠ []

/-! ### The built graph is simple: at most one edge per unordered pair -/

/-- How many stored edges have the unordered pair {u, v}. -/
def edgesCount (es : List (String × String × EdgeData)) (u v : String) : Nat :=
  (es.filter (fun e => sameEdgeKey e.1 e.2.1 u v)).length

def Graph.edgeCount (g : Graph) (u v : String) : Nat := edgesCount g.edges u v

/-! ### Python-value model for the community ensemble
(network_analyzer.py, _detect_communities). Python dicts are heterogeneous:
the keys and values carry their runtime type. -/

inductive PyKey where
  | intKey : Int → PyKey
  | strKey : String → PyKey
deriving DecidableEq

inductive PyVal where
  | pyInt : Int → PyVal
  | pySetStr : List String → PyVal
deriving DecidableEq

/-- Python d.get(k, dflt). -/
def pyDictGet (d : List (PyKey × PyVal)) (k : PyKey) (dflt : PyVal) : PyVal :=
  match d.find? (fun e => e.1 == k) with
  | some e => e.2
  | none => dflt

def enumerateFrom {α : Type} : Int → List α → List (Int × α)
  | _, [] => []
  | i, x :: xs => (i, x) :: enumerateFrom (i + 1) xs

/-! ### The analytics pipeline -/

/-- Python exceptions crossing the analytics pipeline. -/
inductive AnalyzerErr where
  | powerIterationFailed
  | emptyFitInput
  | singularMatrix
  | indexError
deriving DecidableEq

instance {ε α : Type} [DecidableEq ε] [DecidableEq α] : DecidableEq (Except ε α) :=
  fun a b =>
    match a, b with
    | .error e1, .error e2 => decidable_of_iff (e1 = e2) (by simp)
    | .error _, .ok _ => isFalse (by simp)
    | .ok _, .error _ => isFalse (by simp)
    | .ok v1, .ok v2 => decidable_of_iff (v1 = v2) (by simp)

/-- The outputs of the external library calls (networkx centralities and
community algorithms, python-louvain best_partition, nx.simple_cycles) on
the one fixed analysis graph. The repository code treats these libraries as
black boxes, so the embedding takes their outputs as an oracle parameter.
An absent eigenvector function models nx.eigenvector_centrality raising
PowerIterationFailedConvergence (the line-47 call passes max_iter=1000, the
line-187 call runs at the default cap, so the two calls may fail
independently). -/
structure NxFuns where
  degree_centrality : String → Q
  betweenness_centrality : String → Q
  eigenvector_centrality_1000 : Option (String → Q)
  pagerank : String → Q
  load_centrality : String → Q
  katz_centrality : String → Q
  clustering : String → Q
  eigenvector_centrality_default : Option (String → Q)
  louvain_best_partition : List (String × Int)
  label_propagation_communities : List (List String)
  girvan_newman : List (List (List String))
  simple_cycles : List (List String)

def Graph.neighbors (g : Graph) (n : String) : List String :=
  g.edges.foldl (fun acc e =>
    if e.1 == n then acc ++ [e.2.1] else if e.2.1 == n then acc ++ [e.1] else acc) []

/-- The nodes within r hops of the start node. -/
def reachWithin (g : Graph) (start : String) : Nat → List String
  | 0 => [start]
  | r + 1 =>
    let prev := reachWithin g start r
    (prev ++ (prev.map g.neighbors).flatten).dedup

/-- Modelled from the spec: the method _calculate_reach_centrality is called
at network_analyzer.py lines 58 and 189 but its definition is not under
src/. Spec section 4.2 describes it as the fraction of all other nodes
reachable within a fixed hop radius, normalized by total node count; the
hop radius is fixed at 2 here. -/
def reach_centrality (g : Graph) (n : String) : Q :=
  Q.divNat (Q.ofInt ((reachWithin g n 2).filter (fun m => m != n)).length) g.nodes.length

/-- The per-node dict built by _calculate_centrality_metrics, keys degree,
betweenness, eigenvector, pagerank, load, katz, clustering, reach. -/
structure CentralityRecord where
  degree : Q
  betweenness : Q
  eigenvector : Q
  pagerank : Q
  load : Q
  katz : Q
  clustering : Q
  reach : Q
deriving DecidableEq

/-- _calculate_centrality_metrics: one record per node. The
nx.eigenvector_centrality call (max_iter=1000) is evaluated inside the
per-node loop and raises for every node alike when power iteration does not
converge, so the loop fails on its first node or completes for all. -/
def calculate_centrality_metrics (g : Graph) (o : NxFuns) :
    Except AnalyzerErr (List (String × CentralityRecord)) :=
  match g.nodeNames with
  | [] => .ok []
  | _ :: _ =>
    match o.eigenvector_centrality_1000 with
    | none => .error .powerIterationFailed
    | some eig => .ok (g.nodeNames.map (fun n =>
        (n, ⟨o.degree_centrality n, o.betweenness_centrality n, eig n, o.pagerank n,
             o.load_centrality n, o.katz_centrality n, o.clustering n,
             reach_centrality g n⟩)))

/-- The dict comprehension at network_analyzer.py lines 71-72: the loop
variables are named node and comm, but enumerate over the community sets
yields (index, community-set), so the dict actually maps the Int
enumeration index to the set of nodes. -/
def label_prop_dict (comms : List (List String)) : List (PyKey × PyVal) :=
  (enumerateFrom 0 comms).map (fun e => (PyKey.intKey e.1, PyVal.pySetStr e.2))

def louvain_dict (part : List (String × Int)) : List (PyKey × PyVal) :=
  part.map (fun e => (PyKey.strKey e.1, PyVal.pyInt e.2))

/-- The gn dict comprehension at lines 77-78: node to community index over
one partition. -/
def gn_dict_of (partition : List (List String)) : List (PyKey × PyVal) :=
  (enumerateFrom 0 partition).foldl (fun acc e =>
    acc ++ e.2.map (fun n => (PyKey.strKey n, PyVal.pyInt e.1))) []

def pyCount (l : List PyVal) (v : PyVal) : Nat := l.countP (fun x => x == v)

/-- An insertion-ordered stand-in for CPython set construction; set
iteration order is hash-dependent in CPython, and the theorems below only
rely on inputs where some value reaches count at least 2 out of 3, where
every iteration order yields the same maximum. -/
def pySetList (l : List PyVal) : List PyVal :=
  l.foldl (fun acc v => if acc.contains v then acc else acc ++ [v]) []

/-- max(set(communities), key=communities.count): the first set element of
strictly maximal count wins. -/
def pyMaxByCount (l : List PyVal) : PyVal :=
  match pySetList l with
  | [] => PyVal.pyInt 0
  | c :: cs => cs.foldl (fun best x => if pyCount l best < pyCount l x then x else best) c

/-- The gn_communities dict: girvan_newman is only run for graphs under
1000 nodes, and indexing its first yielded partition raises IndexError when
it yielded nothing; at 1000 nodes or more the louvain partition dict is
reused unchanged. -/
def gn_communities (g : Graph) (o : NxFuns) : Except AnalyzerErr (List (PyKey × PyVal)) :=
  if g.nodeNames.length < 1000 then
    match o.girvan_newman with
    | [] => .error .indexError
    | p0 :: _ => .ok (gn_dict_of p0)
  else .ok (louvain_dict o.louvain_best_partition)

/-- _detect_communities: per node, max-by-count over the three dict lookups
(louvain dict, index-keyed label-propagation dict, Girvan-Newman dict),
each keyed by the node string with default 0. -/
def detect_communities (g : Graph) (o : NxFuns) :
    Except AnalyzerErr (List (String × PyVal)) :=
  match gn_communities g o with
  | .error e => .error e
  | .ok gn =>
    .ok (g.nodeNames.map (fun n =>
      (n, pyMaxByCount
        [pyDictGet (louvain_dict o.louvain_best_partition) (PyKey.strKey n) (PyVal.pyInt 0),
         pyDictGet (label_prop_dict o.label_propagation_communities) (PyKey.strKey n)
           (PyVal.pyInt 0),
         pyDictGet gn (PyKey.strKey n) (PyVal.pyInt 0)])))

/-! ### Risk patterns -/

/-- A field value of a risk-pattern dict. -/
inductive PVal where
  | s : String → PVal
  | l : List String → PVal
  | d : List (String × List String) → PVal
deriving DecidableEq

/-- pattern.get('type') as read by the f-string at line 234 (always a
string in every record the source builds). -/
def pGetStr (p : List (String × PVal)) (k : String) : String :=
  match p.lookup k with
  | some (PVal.s v) => v
  | _ => ""

/-- pattern.get('entities', []) as read at line 233: the default applies to
records with no entities key (the hub_spoke records). -/
def pGetEntities (p : List (String × PVal)) : List String :=
  match p.lookup "entities" with
  | some (PVal.l v) => v
  | _ => []

/-- Rotation pairing each cycle node with its successor, wrapping around. -/
def cycleEdgePairs : List String → List (String × String)
  | [] => []
  | x :: xs => (x :: xs).zip (xs ++ [x])

/-- Modelled from the spec: _calculate_cycle_risk (called at line 171) is
not under src/. Spec section 4.4 fixes only that the score is a function of
the edge relationship-type weights and count, normalized to [0, 1]; the
mean of the strengths of the cycle edges is used, which meets the spec
section 8 contract (a 3-cycle of ownership edges of strength at least 0.8
scores above 0.75) and the unit test test_cycle_risk_calculation. -/
def calculate_cycle_risk (g : Graph) (cycle : List String) : Q :=
  let strengths := (cycleEdgePairs cycle).map (fun e =>
    match g.edgeLookup e.1 e.2 with
    | some dd => dd.strength
    | none => Q.zero)
  Q.divNat (Q.sum strengths) strengths.length

/-- self.risk_threshold, set to 0.75 in the constructor. -/
def analyzer_risk_threshold : Q := ⟨75, 100, by decide⟩

/-- _detect_suspicious_cycles: cycles of length at least 3 whose risk
exceeds self.risk_threshold. -/
def detect_suspicious_cycles (g : Graph) (o : NxFuns) : List (List String) :=
  (o.simple_cycles.filter (fun c => 3 ≤ c.length)).filter
    (fun c => Q.ltB analyzer_risk_threshold (calculate_cycle_risk g c))

/-- Modelled from the spec: _find_circular_ownership (called at line 100) is
not under src/. Spec section 4.4: enumerate simple cycles, keep length at
least 3, keep cycle risk above the 0.75 threshold. -/
def find_circular_ownership (g : Graph) (o : NxFuns) : List (List String) :=
  (o.simple_cycles.filter (fun c => 3 ≤ c.length)).filter
    (fun c => Q.ltB analyzer_risk_threshold (calculate_cycle_risk g c))

def edgeTypeBetween (g : Graph) (u v : String) : Option String :=
  (g.edgeLookup u v).map (·.relationship_type)

/-- Modelled from the spec: _identify_hub_spoke_patterns (called at line
109) is not under src/. Spec section 4.4: report nodes whose control- or
ownership-typed edges connect at least 3 otherwise-unrelated (pairwise
non-adjacent) spokes; the unit test test_hub_spoke_detection expects a dict
hub to spoke list. -/
def identify_hub_spoke_patterns (g : Graph) : List (String × List String) :=
  g.nodeNames.filterMap (fun h =>
    let spokes := g.nodeNames.filter (fun n =>
      n != h && (edgeTypeBetween g h n == some "control" ||
                 edgeTypeBetween g h n == some "ownership"))
    if 3 ≤ spokes.length &&
       spokes.all (fun a => spokes.all (fun b => a == b || (g.edgeLookup a b).isNone)) then
      some (h, spokes)
    else none)

/-- The incorporation-date grouping shared by the temporal analysis (the
node names in a graph are unique, so the set-semantics insert coincides
with the defaultdict list append of the source). -/
def dateGroups (g : Graph) : List (String × List String) :=
  g.nodes.foldl (fun acc e =>
    match e.2.incorporation_date with
    | none => acc
    | some dt => dictAdd acc dt e.1) []

/-- Modelled from the spec: _analyze_network_growth (called at line 119) is
not under src/ and the spec (sections 1 and 6) leaves rapid-growth
detection unspecified beyond producing risk-pattern records with an
entities list; the unit test test_network_growth expects a same-date group
of at least 5 entities to yield a rapid_growth record. -/
def analyze_network_growth (g : Graph) : List (List (String × PVal)) :=
  (dateGroups g).filterMap (fun e =>
    if 5 ≤ e.2.length then
      some [("type", PVal.s "rapid_growth"), ("entities", PVal.l e.2),
            ("risk_level", PVal.s "medium")]
    else none)

def componentOf (g : Graph) (n : String) : List String := reachWithin g n g.nodes.length

/-- Modelled from the spec: _identify_isolated_subgroups (called at line
124) is not under src/. Spec section 4.4: connected components of small
size (at most 3 here, within the spec's 3 to 5 band); the unit test
expects a 3-node component to be reported with its 3 members. -/
def identify_isolated_subgroups (g : Graph) : List (List String) :=
  ((g.nodeNames.foldl (fun acc n =>
    if acc.any (fun c => c.contains n) then acc else acc ++ [componentOf g n]) []).filter
    (fun c => c.length ≤ 3))

/-- _identify_risk_patterns: circular-ownership, hub-and-spoke, network
growth and isolated-subgroup records, in source order. The hub_spoke
records carry hub and spokes fields and no entities key, mirroring the dict
literal at lines 111-116. -/
def identify_risk_patterns (g : Graph) (o : NxFuns) : List (List (String × PVal)) :=
  (find_circular_ownership g o).map (fun struct =>
    [("type", PVal.s "circular_ownership"), ("entities", PVal.l struct),
     ("risk_level", PVal.s "high")])
  ++ (identify_hub_spoke_patterns g).map (fun hs =>
    [("type", PVal.s "hub_spoke"), ("hub", PVal.s hs.1), ("spokes", PVal.l hs.2),
     ("risk_level", PVal.s "medium")])
  ++ analyze_network_growth g
  ++ (identify_isolated_subgroups g).map (fun group =>
    [("type", PVal.s "isolated_subgroup"), ("entities", PVal.l group),
     ("risk_level", PVal.s "medium")])

def nodeAttrs (g : Graph) (n : String) : NodeData :=
  match g.nodes.lookup n with
  | some nd => nd
  | none => ⟨none, [], []⟩

def dedupFirst (l : List String) : List String :=
  l.foldl (fun acc v => if acc.contains v then acc else acc ++ [v]) []

/-- The attribute values shared by at least 2 of the given entities. -/
def sharedValues (g : Graph) (entities : List String) (f : NodeData → List String) :
    List String :=
  (dedupFirst ((entities.map (fun n => f (nodeAttrs g n))).flatten)).filter
    (fun v => 2 ≤ entities.countP (fun n => (f (nodeAttrs g n)).contains v))

/-- Modelled from the spec: _check_shared_attributes (called at line 149) is
not under src/. Spec section 4.5: a group shares attributes when a director
name appears across at least 2 members or an address is shared; the unit
test test_shared_attribute_analysis expects a dict with directors and
addresses keys listing the shared values (keys present only when
nonempty, so that an empty dict is falsy). -/
def check_shared_attributes (g : Graph) (entities : List String) :
    List (String × List String) :=
  (let dirs := sharedValues g entities (·.directors)
   if dirs.isEmpty then [] else [("directors", dirs)]) ++
  (let addrs := sharedValues g entities (·.addresses)
   if addrs.isEmpty then [] else [("addresses", addrs)])

/-- _analyze_temporal_patterns: same-date groups of at least 3 entities that
share at least one attribute become bulk_incorporation records. -/
def analyze_temporal_patterns (g : Graph) : List (List (String × PVal)) :=
  (dateGroups g).filterMap (fun e =>
    if 3 ≤ e.2.length then
      let shared := check_shared_attributes g e.2
      if shared.isEmpty then none
      else some [("type", PVal.s "bulk_incorporation"), ("date", PVal.s e.1),
                 ("entities", PVal.l e.2), ("shared_attributes", PVal.d shared),
                 ("risk_level", PVal.s "high")]
    else none)

/-! ### The anomaly scorer (lines 178-208) -/

def colAt (r : List Q) (j : Nat) : Q := r.getD j Q.zero

def colMean (rows : List (List Q)) (j : Nat) : Q :=
  Q.divNat (Q.sum (rows.map (fun r => colAt r j))) rows.length

/-- Population variance of column j (StandardScaler standardizes with the
biased variance). -/
def colVarPop (rows : List (List Q)) (j : Nat) : Q :=
  Q.divNat (Q.sum (rows.map (fun r =>
    Q.mul (Q.sub (colAt r j) (colMean rows j)) (Q.sub (colAt r j) (colMean rows j)))))
    rows.length

/-- sklearn StandardScaler.fit_transform: raises ValueError on zero samples;
columns of zero variance keep scale 1; otherwise the scale is the square
root of the variance. -/
def fit_transform (rows : List (List Q)) : Except AnalyzerErr (List (List Q)) :=
  match rows with
  | [] => .error .emptyFitInput
  | r0 :: _ =>
    let p := r0.length
    let scale := fun j =>
      let v := colVarPop rows j
      if v.eqB Q.zero then Q.ofInt 1 else Q.sqrtModel v
    .ok (rows.map (fun r => (List.range p).map (fun j =>
      Q.div (Q.sub (colAt r j) (colMean rows j)) (scale j))))

/-- np.cov of the transposed feature matrix: the sample covariance with
divisor n - 1. One single row makes numpy emit NaNs (division by zero);
the exact model maps that case to the zero matrix, which flows into the
singular-covariance failure below; no claim depends on the one-node case. -/
def npCov (rows : List (List Q)) : List (List Q) :=
  let p := (rows.headD []).length
  (List.range p).map (fun i => (List.range p).map (fun j =>
    Q.divNat (Q.sum (rows.map (fun r =>
      Q.mul (Q.sub (colAt r i) (colMean rows i)) (Q.sub (colAt r j) (colMean rows j)))))
      (rows.length - 1)))

def dropIdx {α : Type} : List α → Nat → List α
  | [], _ => []
  | _ :: xs, 0 => xs
  | x :: xs, j + 1 => x :: dropIdx xs j

/-- Laplace expansion along the first row, with fuel for structural
termination. -/
def detFuel : Nat → List (List Q) → Q
  | 0, _ => Q.ofInt 1
  | fuel + 1, m =>
    match m with
    | [] => Q.ofInt 1
    | r :: rs =>
      ((enumerateFrom 0 r).map (fun e =>
        let minor := rs.map (fun row => dropIdx row e.1.toNat)
        let term := Q.mul e.2 (detFuel fuel minor)
        if e.1 % 2 == 0 then term else Q.sub Q.zero term)).foldl Q.add Q.zero

def detL (m : List (List Q)) : Q := detFuel m.length m

def minorRC (m : List (List Q)) (i j : Nat) : List (List Q) :=
  (dropIdx m i).map (fun row => dropIdx row j)

def cofactorSign (i j : Nat) : Q :=
  if (i + j) % 2 == 0 then Q.ofInt 1 else Q.ofInt (-1)

/-- numpy.linalg.inv: raises LinAlgError for a singular matrix (its
documented contract, exact under exact arithmetic); otherwise the adjugate
over the determinant. -/
def npInv (m : List (List Q)) : Except AnalyzerErr (List (List Q)) :=
  if (detL m).eqB Q.zero then .error .singularMatrix
  else .ok ((List.range m.length).map (fun i => (List.range m.length).map (fun j =>
    Q.div (Q.mul (cofactorSign j i) (detL (minorRC m j i))) (detL m))))

def quadForm (v : List Q) (m : List (List Q)) : Q :=
  Q.sum ((enumerateFrom 0 v).map (fun ei =>
    Q.sum ((enumerateFrom 0 v).map (fun ej =>
      Q.mul ei.2 (Q.mul (colAt (((m.getD ei.1.toNat [])) ) ej.1.toNat) ej.2)))))

/-- The 5 anomaly features per node (lines 184-190): degree, betweenness,
eigenvector (the line-187 call at the default iteration cap), clustering,
reach. -/
def anomaly_features (g : Graph) (o : NxFuns) (eig : String → Q) (n : String) : List Q :=
  [o.degree_centrality n, o.betweenness_centrality n, eig n, o.clustering n,
   reach_centrality g n]

/-- _calculate_anomaly_scores. With no nodes the feature loop is empty and
StandardScaler raises on the empty feature list; with nodes present the
per-node nx.eigenvector_centrality call (default cap) raises first when it
does not converge. Then: standardize, sample covariance, inverse (raising
on a singular matrix), per-node Mahalanobis distance. -/
def calculate_anomaly_scores (g : Graph) (o : NxFuns) :
    Except AnalyzerErr (List (String × Q)) :=
  match g.nodeNames with
  | [] => .error .emptyFitInput
  | n0 :: ns =>
    match o.eigenvector_centrality_default with
    | none => .error .powerIterationFailed
    | some eig =>
      match fit_transform ((n0 :: ns).map (anomaly_features g o eig)) with
      | .error e => .error e
      | .ok z =>
        match npInv (npCov z) with
        | .error e => .error e
        | .ok invCov =>
          let mean := (List.range ((z.headD []).length)).map (fun j => colMean z j)
          .ok (((n0 :: ns).zip z).map (fun e =>
            (e.1, Q.sqrtModel (quadForm ((e.2.zip mean).map (fun pq => Q.sub pq.1 pq.2))
              invCov))))

/-! ### NetworkMetrics and the high-risk ranker -/

/-- The NetworkMetrics dataclass. -/
structure NetworkMetrics where
  centrality_scores : List (String × CentralityRecord)
  community_membership : List (String × PyVal)
  risk_patterns : List (List (String × PVal))
  temporal_patterns : List (List (String × PVal))
  suspicious_cycles : List (List String)
  anomaly_scores : List (String × Q)
deriving DecidableEq

/-- calculate_network_metrics: the constructor arguments are evaluated in
source order (centrality, communities, risk patterns, temporal patterns,
cycles, anomaly scores); the first exception aborts the call. -/
def calculate_network_metrics (g : Graph) (o : NxFuns) :
    Except AnalyzerErr NetworkMetrics :=
  match calculate_centrality_metrics g o with
  | .error e => .error e
  | .ok cent =>
    match detect_communities g o with
    | .error e => .error e
    | .ok comm =>
      match calculate_anomaly_scores g o with
      | .error e => .error e
      | .ok anom =>
        .ok ⟨cent, comm, identify_risk_patterns g o, analyze_temporal_patterns g,
             detect_suspicious_cycles g o, anom⟩

structure HighRiskEntry where
  entity : String
  risk_factors : List String
  anomaly_score : Q
  centrality_scores : CentralityRecord
deriving DecidableEq

def lookupD {α : Type} (l : List (String × α)) (k : String) (dflt : α) : α :=
  match l.lookup k with
  | some v => v
  | none => dflt

def defaultCentrality : CentralityRecord :=
  ⟨Q.zero, Q.zero, Q.zero, Q.zero, Q.zero, Q.zero, Q.zero, Q.zero⟩

/-- The risk-factor list one node accumulates in get_high_risk_entities
(lines 216-238), in source order: betweenness and pagerank against the
caller threshold, community isolation (community size under 3), membership
in the entities list of a risk-pattern record, anomaly score against the
threshold. The metrics lookups cannot miss (every node has entries); the
defaults stand for the impossible KeyError. -/
def riskFactors (m : NetworkMetrics) (n : String) (thr : Q) : List String :=
  (if Q.ltB thr (lookupD m.centrality_scores n defaultCentrality).betweenness
   then ["high_betweenness_centrality"] else []) ++
  (if Q.ltB thr (lookupD m.centrality_scores n defaultCentrality).pagerank
   then ["high_pagerank"] else []) ++
  (if m.community_membership.countP
      (fun e => e.2 == lookupD m.community_membership n (PyVal.pyInt 0)) < 3
   then ["isolated_community"] else []) ++
  (m.risk_patterns.filterMap (fun p =>
    if (pGetEntities p).contains n then some ("involved_in_" ++ pGetStr p "type")
    else none)) ++
  (if Q.ltB thr (lookupD m.anomaly_scores n Q.zero)
   then ["high_anomaly_score"] else [])

/-- The output entry one node contributes: nothing when its risk-factor
list is empty, else the record of lines 241-246. -/
def highRiskEntry (m : NetworkMetrics) (thr : Q) (n : String) : Option HighRiskEntry :=
  if (riskFactors m n thr).isEmpty then none
  else some ⟨n, riskFactors m n thr, lookupD m.anomaly_scores n Q.zero,
             lookupD m.centrality_scores n defaultCentrality⟩

/-- get_high_risk_entities: recompute the metrics, keep every node with at
least one risk factor, and sort descending by anomaly score (Python sorted
with reverse=True is stable). -/
def get_high_risk_entities (g : Graph) (o : NxFuns) (riskThreshold : Q) :
    Except AnalyzerErr (List HighRiskEntry) :=
  match calculate_network_metrics g o with
  | .error e => .error e
  | .ok m =>
    .ok ((g.nodeNames.filterMap (highRiskEntry m riskThreshold)).insertionSort
      (fun a b => !(Q.ltB a.anomaly_score b.anomaly_score) = true))

/-- The default caller threshold of get_high_risk_entities. -/
def default_risk_threshold : Q := ⟨8, 10, by decide⟩

/-! ### Claim-side (specification) rendering of the community consensus,
used to compare the code against claim C2 -/

/-- The label the claim attributes to a node under label propagation: the
index of the community containing it (what the comprehension at lines 71-72
visibly meant to build, and what the gn comprehension at lines 77-78 does
build). -/
def specLabelPropLabel (comms : List (List String)) (n : String) : Int :=
  match (enumerateFrom 0 comms).find? (fun e => e.2.contains n) with
  | some e => e.1
  | none => 0

/-- The claim's consensus rule: the most frequent label of the three, ties
broken by the fixed precedence modularity, then label propagation, then
hierarchical (the first maximal-count label in that order). -/
def specConsensus (labels : List Int) : Int :=
  match labels with
  | [] => 0
  | x :: xs => xs.foldl (fun best y =>
      if (labels.countP (fun z => z == best)) < (labels.countP (fun z => z == y)) then y
      else best) x

/-- Claim C2's description of _detect_communities, rendered from the spec
sentence: per node, the most frequent of the modularity label, the
label-propagation label and the hierarchical label (the latter replaced by
the modularity label at 1000 nodes or more), ties by fixed precedence. -/
def spec_detect_communities (g : Graph) (o : NxFuns) : List (String × Int) :=
  let gnLabel : String → Int :=
    if g.nodeNames.length < 1000 then
      fun n => match o.girvan_newman with
        | [] => 0
        | p0 :: _ => specLabelPropLabel p0 n
    else fun n => lookupD o.louvain_best_partition n 0
  g.nodeNames.map (fun n =>
    (n, specConsensus [lookupD o.louvain_best_partition n 0,
                       specLabelPropLabel o.label_propagation_communities n,
                       gnLabel n]))

/-! ### Helper projections for closed statements -/

/-- The metrics bundle of a successful run (the empty bundle is never
reached in the closed statements below, which pair this with an equation
proving the run succeeded). -/
def metricsOrEmpty (g : Graph) (o : NxFuns) : NetworkMetrics :=
  match calculate_network_metrics g o with
  | .ok m => m
  | .error _ => ⟨[], [], [], [], [], []⟩

/-- The ranked list of a successful get_high_risk_entities run. -/
def hrOrEmpty (g : Graph) (o : NxFuns) (thr : Q) : List HighRiskEntry :=
  match get_high_risk_entities g o thr with
  | .ok hr => hr
  | .error _ => []

/-- The standardized feature matrix of a successful fit_transform. -/
def ftOrNil (g : Graph) (o : NxFuns) (eig : String → Q) : List (List Q) :=
  match fit_transform (g.nodeNames.map (anomaly_features g o eig)) with
  | .ok z => z
  | .error _ => []

/-! ### Concrete instances used by the witnesses and counterexamples -/

def qi (n : Int) : Q := ⟨n, 1, Nat.one_pos⟩

def qTenths (n : Int) : Q := ⟨n, 10, by decide⟩

def featOf (tbl : List (String × Q)) : String → Q := fun n => lookupD tbl n Q.zero

def constQ (c : Q) : String → Q := fun _ => c

def officerJohn : Officer := ⟨some "John Smith", some 1, some 1980⟩

def officeShared : OfficeAddress := ⟨some "1 Test Street", some "AB1 2CD"⟩

def pscHold : PscRecord := ⟨some "corporate-entity", some "HoldCo Ltd"⟩

def bundleA : CompanyData := ⟨some ⟨"A1", some "2024-01-02", some officeShared⟩, [officerJohn], []⟩

def bundleB : CompanyData := ⟨some ⟨"B2", some "2024-01-03", some officeShared⟩, [officerJohn], []⟩

def bundleC : CompanyData :=
  ⟨some ⟨"C3", some "2024-02-01", some officeShared⟩, [officerJohn], [pscHold]⟩

def bundleD : CompanyData :=
  ⟨some ⟨"D4", some "2024-02-02", some officeShared⟩, [officerJohn], [pscHold]⟩

def nd (dt : String) : NodeData := ⟨some dt, [], []⟩

/-- 6-node witness graph: a 4-node path and two isolated nodes. -/
def gW : Graph :=
  ⟨[("n1", nd "2024-01-01"), ("n2", nd "2024-01-02"), ("n3", nd "2024-01-03"),
    ("n4", nd "2024-01-04"), ("n5", nd "2024-01-05"), ("n6", nd "2024-01-06")],
   [("n1", "n2", ⟨"shared_director", qTenths 7⟩),
    ("n2", "n3", ⟨"shared_director", qTenths 7⟩),
    ("n3", "n4", ⟨"shared_address", qTenths 6⟩)]⟩

/-- Library-output oracle for gW: generic feature values (chosen so the
standardized covariance is invertible) and partitions consistent with the
three components of gW. -/
def oW : NxFuns :=
  ⟨featOf [("n1", qi 3), ("n2", qi 1), ("n3", qi 4), ("n4", qi 1), ("n5", qi 5),
           ("n6", qi 9)],
   featOf [("n1", qTenths 9), ("n2", qTenths 1), ("n3", qTenths 2), ("n4", qTenths 3),
           ("n5", qTenths 4), ("n6", qTenths 5)],
   some (featOf [("n1", qi 2), ("n2", qi 6), ("n3", qi 5), ("n4", qi 3), ("n5", qi 1),
                 ("n6", qi 4)]),
   featOf [("n1", qTenths 9), ("n2", qTenths 2), ("n3", qTenths 3), ("n4", qTenths 1),
           ("n5", qTenths 2), ("n6", qTenths 1)],
   constQ (qTenths 1),
   constQ (qTenths 2),
   featOf [("n1", qTenths 1), ("n2", qTenths 4), ("n3", qTenths 2), ("n4", qTenths 8),
           ("n5", qTenths 5), ("n6", qTenths 7)],
   some (featOf [("n1", qi 2), ("n2", qi 6), ("n3", qi 5), ("n4", qi 3), ("n5", qi 1),
                 ("n6", qi 4)]),
   [("n1", 0), ("n2", 0), ("n3", 0), ("n4", 0), ("n5", 1), ("n6", 2)],
   [["n1", "n2", "n3", "n4"], ["n5"], ["n6"]],
   [[["n1", "n2", "n3", "n4"], ["n5"], ["n6"]]],
   []⟩

/-- 2-node graph whose nodes get identical feature vectors (singular
covariance). -/
def gS : Graph := ⟨[("s1", nd "2024-03-01"), ("s2", nd "2024-03-02")], []⟩

def eigS : String → Q := constQ (qi 2)

def oS : NxFuns :=
  ⟨constQ (qi 1), constQ (qi 1), some (constQ (qi 1)), constQ (qi 1), constQ (qi 1),
   constQ (qi 1), constQ (qi 1), some eigS,
   [("s1", 0), ("s2", 1)], [["s1"], ["s2"]], [[["s1"], ["s2"]]], []⟩

/-- 1-node graph whose eigenvector-centrality calls fail to converge. -/
def g6 : Graph := ⟨[("m1", nd "2024-01-01")], []⟩

def o6 : NxFuns :=
  ⟨constQ (qi 1), constQ (qi 1), none, constQ (qi 1), constQ (qi 1), constQ (qi 1),
   constQ (qi 1), none, [("m1", 0)], [["m1"]], [[["m1"]]], []⟩

/-- Oracle for the empty graph: every library yields its empty-graph output
(girvan_newman on an edgeless graph yields the connected components once,
here the empty partition). -/
def oE : NxFuns :=
  ⟨constQ Q.zero, constQ Q.zero, some (constQ Q.zero), constQ Q.zero, constQ Q.zero,
   constQ Q.zero, constQ Q.zero, some (constQ Q.zero), [], [], [[]], []⟩

/-- Two bridged triangles; all three community algorithms find the same two
communities, louvain merely numbering them in the opposite order. -/
def gC : Graph :=
  ⟨[("A", nd "2024-01-01"), ("B", nd "2024-01-02"), ("C", nd "2024-01-03"),
    ("D", nd "2024-01-04"), ("E", nd "2024-01-05"), ("F", nd "2024-01-06")],
   [("A", "B", ⟨"shared_director", qTenths 7⟩), ("B", "C", ⟨"shared_director", qTenths 7⟩),
    ("A", "C", ⟨"shared_director", qTenths 7⟩), ("D", "E", ⟨"shared_director", qTenths 7⟩),
    ("E", "F", ⟨"shared_director", qTenths 7⟩), ("D", "F", ⟨"shared_director", qTenths 7⟩),
    ("C", "D", ⟨"shared_address", qTenths 6⟩)]⟩

def oC : NxFuns :=
  ⟨constQ (qi 1), constQ (qi 1), some (constQ (qi 1)), constQ (qi 1), constQ (qi 1),
   constQ (qi 1), constQ (qi 1), some (constQ (qi 1)),
   [("A", 1), ("B", 1), ("C", 1), ("D", 0), ("E", 0), ("F", 0)],
   [["A", "B", "C"], ["D", "E", "F"]],
   [[["A", "B", "C"], ["D", "E", "F"]]],
   []⟩

/-- Hub H with 3 control spokes and a 3-node chain keeping the rest of the
graph connected and the reach values varied. -/
def g8 : Graph :=
  ⟨[("H", nd "2024-01-01"), ("S1", nd "2024-01-02"), ("S2", nd "2024-01-03"),
    ("S3", nd "2024-01-04"), ("X", nd "2024-01-05"), ("Y", nd "2024-01-06"),
    ("Z", nd "2024-01-07")],
   [("H", "S1", ⟨"control", qTenths 9⟩), ("H", "S2", ⟨"control", qTenths 9⟩),
    ("H", "S3", ⟨"control", qTenths 9⟩), ("H", "X", ⟨"shared_address", qTenths 6⟩),
    ("X", "Y", ⟨"shared_address", qTenths 6⟩), ("Y", "Z", ⟨"shared_address", qTenths 6⟩)]⟩

def o8 : NxFuns :=
  ⟨featOf [("H", qi 4), ("S1", qi 1), ("S2", qi 1), ("S3", qi 1), ("X", qi 3),
           ("Y", qi 2), ("Z", qi 1)],
   featOf [("H", qTenths 9), ("S1", qTenths 1), ("S2", qTenths 2), ("S3", qTenths 3),
           ("X", qTenths 7), ("Y", qTenths 4), ("Z", qTenths 1)],
   some (featOf [("H", qi 5), ("S1", qi 2), ("S2", qi 3), ("S3", qi 1), ("X", qi 4),
                 ("Y", qi 2), ("Z", qi 1)]),
   constQ (qTenths 2),
   constQ (qTenths 1),
   constQ (qTenths 2),
   featOf [("H", qTenths 1), ("S1", Q.zero), ("S2", qTenths 2), ("S3", qTenths 3),
           ("X", qTenths 1), ("Y", qTenths 5), ("Z", qTenths 4)],
   some (featOf [("H", qi 5), ("S1", qi 2), ("S2", qi 3), ("S3", qi 1), ("X", qi 4),
                 ("Y", qi 2), ("Z", qi 1)]),
   [("H", 0), ("S1", 0), ("S2", 0), ("S3", 0), ("X", 0), ("Y", 0), ("Z", 0)],
   [["H", "S1", "S2", "S3", "X", "Y", "Z"]],
   [[["H", "S1", "S2", "S3", "X", "Y", "Z"]]],
   []⟩

theorem Q.ltB_trans {a b c : Q} (h1 : Q.ltB a b = true) (h2 : Q.ltB b c = true) :
    Q.ltB a c = true := by
  simp only [Q.ltB, decide_eq_true_eq] at h1 h2 ⊢
  have hb : (0 : Int) < b.den := by exact_mod_cast b.den_pos
  have ha : (0 : Int) < a.den := by exact_mod_cast a.den_pos
  have hc : (0 : Int) < c.den := by exact_mod_cast c.den_pos
  have h1c := mul_lt_mul_of_pos_right h1 hc
  have h2a := mul_lt_mul_of_pos_right h2 ha
  have key : a.num * c.den * b.den < c.num * a.den * b.den := by
    calc a.num * c.den * b.den = a.num * b.den * c.den := by ring
    _ < b.num * a.den * c.den := h1c
    _ = b.num * c.den * a.den := by ring
    _ < c.num * b.den * a.den := h2a
    _ = c.num * a.den * b.den := by ring
  exact lt_of_mul_lt_mul_right key (le_of_lt hb)

/-! ### Characterization of the built edge set -/

theorem sameEdgeKey_iff {a b u v : String} :
    sameEdgeKey a b u v = true ↔ (a = u ∧ b = v) ∨ (a = v ∧ b = u) := by
  simp [sameEdgeKey]

theorem sameEdgeKey_swap2 (x y u v : String) :
    sameEdgeKey x y u v = sameEdgeKey x y v u := by
  rw [Bool.eq_iff_iff, sameEdgeKey_iff, sameEdgeKey_iff]
  tauto

theorem sameEdgeKey_comm (a b u v : String) :
    sameEdgeKey a b u v = sameEdgeKey u v a b := by
  rw [Bool.eq_iff_iff, sameEdgeKey_iff, sameEdgeKey_iff]
  tauto

/-- If the stored pair (a, b) is the unordered pair {u, v}, then testing any
pair against (a, b) is the same as testing it against (u, v). -/
theorem sameEdgeKey_congr {a b u v : String} (h : sameEdgeKey a b u v = true)
    (x y : String) : sameEdgeKey x y a b = sameEdgeKey x y u v := by
  rcases sameEdgeKey_iff.mp h with ⟨rfl, rfl⟩ | ⟨rfl, rfl⟩
  · rfl
  · rw [sameEdgeKey_swap2]

theorem lookupEdges_updateEdges (es : List (String × String × EdgeData))
    (a b u v : String) (d : EdgeData) :
    lookupEdges (updateEdges es a b d) u v =
      if sameEdgeKey a b u v then some d else lookupEdges es u v := by
  induction es with
  | nil => simp [updateEdges, lookupEdges]
  | cons e rest ih =>
    by_cases h1 : sameEdgeKey e.1 e.2.1 a b = true
    · have hE : sameEdgeKey e.1 e.2.1 u v = sameEdgeKey a b u v := by
        rw [sameEdgeKey_comm e.1 e.2.1 u v, sameEdgeKey_congr h1 u v, sameEdgeKey_comm]
      simp only [updateEdges, h1, if_true, lookupEdges, hE]
      by_cases h2 : sameEdgeKey a b u v = true
      · simp [h2]
      · rw [Bool.not_eq_true] at h2
        simp [h2]
    · rw [Bool.not_eq_true] at h1
      simp only [updateEdges, h1, Bool.false_eq_true, if_false, lookupEdges, ih]
      by_cases h2 : sameEdgeKey a b u v = true
      · have hF : sameEdgeKey e.1 e.2.1 u v = false := by
          have hc := sameEdgeKey_congr h2 e.1 e.2.1
          rw [← hc]
          exact h1
        simp [h2, hF]
      · rw [Bool.not_eq_true] at h2
        simp [h2]

theorem edges_ensureNode (g : Graph) (n : String) : (g.ensureNode n).edges = g.edges := by
  unfold Graph.ensureNode
  split <;> rfl

theorem edgeLookup_addEdge (g : Graph) (a b u v : String) (d : EdgeData) :
    (g.addEdge a b d).edgeLookup u v =
      if sameEdgeKey a b u v then some d else g.edgeLookup u v := by
  show lookupEdges (updateEdges ((g.ensureNode a).ensureNode b).edges a b d) u v = _
  rw [edges_ensureNode, edges_ensureNode]
  exact lookupEdges_updateEdges g.edges a b u v d

theorem edgeLookup_addRelationshipEdges (pairs : List (String × String))
    (g : Graph) (d : EdgeData) (u v : String) :
    (addRelationshipEdges g pairs d).edgeLookup u v =
      if pairCovers pairs u v then some d else g.edgeLookup u v := by
  induction pairs generalizing g with
  | nil => simp [addRelationshipEdges, pairCovers]
  | cons p rest ih =>
    have hstep : addRelationshipEdges g (p :: rest) d =
        addRelationshipEdges (g.addEdge p.1 p.2 d) rest d := rfl
    rw [hstep, ih, edgeLookup_addEdge]
    have hc : pairCovers (p :: rest) u v = (sameEdgeKey p.1 p.2 u v || pairCovers rest u v) := rfl
    rw [hc]
    cases h1 : pairCovers rest u v <;> cases h2 : sameEdgeKey p.1 p.2 u v <;> simp [h1, h2]

/-! ### Dictionary lemmas for the grouping loops -/

theorem mem_groupLookup_dictAdd {K : Type} [BEq K] [LawfulBEq K]
    (d : List (K × List String)) (k0 : K) (c : String) (k : K) (x : String) :
    x ∈ groupLookup (dictAdd d k0 c) k ↔ x ∈ groupLookup d k ∨ (k = k0 ∧ x = c) := by
  induction d with
  | nil =>
    by_cases h : k0 = k
    · subst h
      simp [dictAdd, groupLookup]
    · have hb : (k0 == k) = false := by simpa using h
      simp [dictAdd, groupLookup, hb]
      intro hk
      exact absurd hk.symm h
  | cons e rest ih =>
    by_cases h : e.1 = k0
    · have hb : (e.1 == k0) = true := by simpa using h
      by_cases h2 : e.1 = k
      · have hb2 : (e.1 == k) = true := by simpa using h2
        subst h2
        simp only [dictAdd, hb, if_true, groupLookup, hb2]
        by_cases hc : c ∈ e.2
        · simp only [if_pos hc]
          constructor
          · intro hx
            exact Or.inl hx
          · rintro (hx | ⟨hk, rfl⟩)
            · exact hx
            · exact hc
        · simp only [if_neg hc, List.mem_append, List.mem_singleton]
          constructor
          · rintro (hx | rfl)
            · exact Or.inl hx
            · exact Or.inr ⟨h, rfl⟩
          · rintro (hx | ⟨hk, rfl⟩)
            · exact Or.inl hx
            · exact Or.inr rfl
      · have hb2 : (e.1 == k) = false := by simpa using h2
        simp only [dictAdd, hb, if_true, groupLookup, hb2, Bool.false_eq_true, if_false]
        have hkk : ¬ (k = k0) := fun hk => h2 (by rw [h, hk])
        simp [hkk]
    · have hb : (e.1 == k0) = false := by simpa using h
      by_cases h2 : e.1 = k
      · have hb2 : (e.1 == k) = true := by simpa using h2
        simp only [dictAdd, hb, Bool.false_eq_true, if_false, groupLookup, hb2, if_true]
        have hkk : ¬ (k = k0) := fun hk => h (by rw [h2, hk])
        simp [hkk]
      · have hb2 : (e.1 == k) = false := by simpa using h2
        simp only [dictAdd, hb, Bool.false_eq_true, if_false, groupLookup, hb2, ih]

theorem fst_mem_dictAdd {K : Type} [BEq K] [LawfulBEq K]
    (d : List (K × List String)) (k0 : K) (c : String) :
    ∀ b ∈ dictAdd d k0 c, b.1 = k0 ∨ b ∈ d := by
  induction d with
  | nil => simp [dictAdd]
  | cons e rest ih =>
    by_cases h : e.1 = k0
    · have hb : (e.1 == k0) = true := by simpa using h
      simp only [dictAdd, hb, if_true]
      rintro b hb2
      rcases List.mem_cons.mp hb2 with rfl | hmem
      · exact Or.inl h
      · exact Or.inr (List.mem_cons_of_mem _ hmem)
    · have hb : (e.1 == k0) = false := by simpa using h
      simp only [dictAdd, hb, Bool.false_eq_true, if_false]
      rintro b hb2
      rcases List.mem_cons.mp hb2 with rfl | hmem
      · exact Or.inr (List.mem_cons_self _ _)
      · rcases ih b hmem with hk | hmem2
        · exact Or.inl hk
        · exact Or.inr (List.mem_cons_of_mem _ hmem2)

theorem dictWF_dictAdd {K : Type} [BEq K] [LawfulBEq K]
    (d : List (K × List String)) (k0 : K) (c : String) (h : DictWF d) :
    DictWF (dictAdd d k0 c) := by
  induction d with
  | nil =>
    unfold DictWF
    constructor
    · simp [dictAdd]
    · simp [dictAdd]
  | cons e rest ih =>
    obtain ⟨hpw, hvals⟩ := h
    rw [List.pairwise_cons] at hpw
    obtain ⟨hhead, hrest⟩ := hpw
    have hvals_rest : ∀ b ∈ rest, b.2.Nodup ∧ b.2 ≠ [] := fun b hb =>
      hvals b (List.mem_cons_of_mem _ hb)
    have hvals_e := hvals e (List.mem_cons_self _ _)
    by_cases hk : e.1 = k0
    · have hb : (e.1 == k0) = true := by simpa using hk
      simp only [dictAdd, hb, if_true]
      unfold DictWF
      constructor
      · rw [List.pairwise_cons]
        exact ⟨hhead, hrest⟩
      · rintro b hb2
        rcases List.mem_cons.mp hb2 with rfl | hmem
        · constructor
          · by_cases hc : c ∈ e.2
            · simpa [hc] using hvals_e.1
            · simp only [if_neg hc]
              rw [List.nodup_append]
              exact ⟨hvals_e.1, List.nodup_singleton c, by simpa using hc⟩
          · by_cases hc : c ∈ e.2
            · simpa [hc] using hvals_e.2
            · simp [hc]
        · exact hvals_rest b hmem
    · have hb : (e.1 == k0) = false := by simpa using hk
      simp only [dictAdd, hb, Bool.false_eq_true, if_false]
      have ihr := ih ⟨hrest, hvals_rest⟩
      unfold DictWF
      constructor
      · rw [List.pairwise_cons]
        constructor
        · intro b hbmem
          rcases fst_mem_dictAdd rest k0 c b hbmem with hk2 | hmem
          · rw [hk2]; exact hk
          · exact hhead b hmem
        · exact ihr.1
      · rintro b hb2
        rcases List.mem_cons.mp hb2 with rfl | hmem
        · exact hvals_e
        · exact ihr.2 b hmem

theorem entry_lookup_of_wf {K : Type} [BEq K] [LawfulBEq K]
    (d : List (K × List String)) (h : d.Pairwise (fun a b => a.1 ≠ b.1)) :
    ∀ e ∈ d, groupLookup d e.1 = e.2 := by
  induction d with
  | nil => simp
  | cons e0 rest ih =>
    rw [List.pairwise_cons] at h
    rintro e he
    rcases List.mem_cons.mp he with rfl | hmem
    · simp [groupLookup]
    · have hne : e0.1 ≠ e.1 := h.1 e hmem
      have hb : (e0.1 == e.1) = false := by simpa using hne
      simp only [groupLookup, hb, Bool.false_eq_true, if_false]
      exact ih h.2 e hmem

theorem lookup_mem_of_ne_nil {K : Type} [BEq K] [LawfulBEq K]
    (d : List (K × List String)) (k : K) (h : groupLookup d k ≠ []) :
    (k, groupLookup d k) ∈ d := by
  induction d with
  | nil => simp [groupLookup] at h
  | cons e rest ih =>
    obtain ⟨ek, ev⟩ := e
    by_cases hk : ek = k
    · subst hk
      have hb : (ek == ek) = true := by simp
      simp only [groupLookup, hb, if_true] at h ⊢
      exact List.mem_cons_self _ _
    · have hb : (ek == k) = false := by simpa using hk
      simp only [groupLookup, hb, Bool.false_eq_true, if_false] at h ⊢
      exact List.mem_cons_of_mem _ (ih h)

theorem one_lt_length_of_two_mem {l : List String} {u v : String}
    (hu : u ∈ l) (hv : v ∈ l) (huv : u ≠ v) : 1 < l.length := by
  match l with
  | [] => simp at hu
  | [a] =>
    simp at hu hv
    exact absurd (hu.trans hv.symm) huv
  | a :: b :: rest => simp only [List.length_cons]; omega

theorem any_map_pair (x : String) (xs : List String) (u v : String) :
    (xs.map (fun y => (x, y))).any (fun p => sameEdgeKey p.1 p.2 u v) =
      xs.any (fun y => sameEdgeKey x y u v) := by
  induction xs with
  | nil => rfl
  | cons y ys ih => simp only [List.map_cons, List.any_cons, ih]

theorem pairCovers_allPairs (l : List String) (hl : l.Nodup) (u v : String) :
    pairCovers (allPairs l) u v = true ↔ u ∈ l ∧ v ∈ l ∧ u ≠ v := by
  induction l with
  | nil => simp [allPairs, pairCovers]
  | cons x xs ih =>
    rw [List.nodup_cons] at hl
    obtain ⟨hx, hxs⟩ := hl
    have hsplit : pairCovers (allPairs (x :: xs)) u v =
        (xs.any (fun y => sameEdgeKey x y u v) || pairCovers (allPairs xs) u v) := by
      simp only [pairCovers, allPairs, List.any_append, any_map_pair]
    rw [hsplit, Bool.or_eq_true]
    constructor
    · rintro (h | h)
      · rw [List.any_eq_true] at h
        obtain ⟨y, hy, hkey⟩ := h
        rcases sameEdgeKey_iff.mp hkey with ⟨rfl, rfl⟩ | ⟨rfl, rfl⟩
        · refine ⟨List.mem_cons_self _ _, List.mem_cons_of_mem _ hy, fun he => hx ?_⟩
          rw [he]; exact hy
        · refine ⟨List.mem_cons_of_mem _ hy, List.mem_cons_self _ _, fun he => hx ?_⟩
          rw [← he]; exact hy
      · obtain ⟨h1, h2, h3⟩ := (ih hxs).mp h
        exact ⟨List.mem_cons_of_mem _ h1, List.mem_cons_of_mem _ h2, h3⟩
    · rintro ⟨hu, hv, huv⟩
      rcases List.mem_cons.mp hu with rfl | humem
      · rcases List.mem_cons.mp hv with rfl | hvmem
        · exact absurd rfl huv
        · left
          rw [List.any_eq_true]
          exact ⟨v, hvmem, by simp [sameEdgeKey]⟩
      · rcases List.mem_cons.mp hv with rfl | hvmem
        · left
          rw [List.any_eq_true]
          exact ⟨u, humem, by simp [sameEdgeKey]⟩
        · right
          exact (ih hxs).mpr ⟨humem, hvmem, huv⟩

theorem pairCovers_groupPairs {K : Type} (groups : List (K × List String))
    (hn : ∀ e ∈ groups, e.2.Nodup) (u v : String) :
    pairCovers (groupPairs groups) u v = true ↔
      ∃ e ∈ groups, u ∈ e.2 ∧ v ∈ e.2 ∧ u ≠ v := by
  induction groups with
  | nil => simp [groupPairs, pairCovers]
  | cons e rest ih =>
    have hne := hn e (List.mem_cons_self _ _)
    have hnr : ∀ b ∈ rest, b.2.Nodup := fun b hb => hn b (List.mem_cons_of_mem _ hb)
    have hsplit : pairCovers (groupPairs (e :: rest)) u v =
        (pairCovers (if 1 < e.2.length then allPairs e.2 else []) u v       ||
         pairCovers (groupPairs rest) u v) := by
      simp [pairCovers, groupPairs, List.any_append]
    rw [hsplit, Bool.or_eq_true]
    constructor
    · rintro (h | h)
      · by_cases hlen : 1 < e.2.length
        · rw [if_pos hlen] at h
          obtain ⟨h1, h2, h3⟩ := (pairCovers_allPairs e.2 hne u v).mp h
          exact ⟨e, List.mem_cons_self _ _, h1, h2, h3⟩
        · rw [if_neg hlen] at h
          simp [pairCovers] at h
      · obtain ⟨e2, he2, h1, h2, h3⟩ := (ih hnr).mp h
        exact ⟨e2, List.mem_cons_of_mem _ he2, h1, h2, h3⟩
    · rintro ⟨e2, he2, h1, h2, h3⟩
      rcases List.mem_cons.mp he2 with rfl | hmem
      · left
        rw [if_pos (one_lt_length_of_two_mem h1 h2 h3)]
        exact (pairCovers_allPairs e2.2 hne u v).mpr ⟨h1, h2, h3⟩
      · right
        exact (ih hnr).mpr ⟨e2, hmem, h1, h2, h3⟩

theorem mem_groupLookup_foldKeys {K : Type} [BEq K] [LawfulBEq K]
    (keys : List K) (comp : String) (d : List (K × List String)) (k : K) (x : String) :
    x ∈ groupLookup (keys.foldl (fun d0 k0 => dictAdd d0 k0 comp) d) k ↔
      x ∈ groupLookup d k ∨ (k ∈ keys ∧ x = comp) := by
  induction keys generalizing d with
  | nil => simp
  | cons k1 ks ih =>
    rw [List.foldl_cons, ih, mem_groupLookup_dictAdd]
    simp only [List.mem_cons]
    tauto

theorem mem_groupLookup_foldData {K : Type} [BEq K] [LawfulBEq K]
    (f : CompanyData → Profile → List K) (companies_data : List CompanyData)
    (d : List (K × List String)) (k : K) (x : String) :
    x ∈ groupLookup (companies_data.foldl (fun d0 cd =>
        match cd.profile with
        | none => d0
        | some p => (f cd p).foldl (fun d1 k1 => dictAdd d1 k1 p.company_number) d0) d) k ↔
      x ∈ groupLookup d k ∨ keyMatches f companies_data k x = true := by
  induction companies_data generalizing d with
  | nil => simp [keyMatches]
  | cons cd rest ih =>
    rw [List.foldl_cons, ih]
    cases hp : cd.profile with
    | none =>
      simp only [hp, keyMatches, List.any_cons]
      simp [keyMatches]
    | some p =>
      simp only [hp, mem_groupLookup_foldKeys]
      have hhead : ((match cd.profile with
          | none => false
          | some p => p.company_number == x && (f cd p).any (· == k)) = true) ↔
          (k ∈ f cd p ∧ x = p.company_number) := by
        simp only [hp]
        rw [Bool.and_eq_true, List.any_eq_true]
        constructor
        · rintro ⟨hc, k1, hk1, hbk⟩
          have hk2 : k1 = k := by simpa using hbk
          subst hk2
          have hcx : p.company_number = x := by simpa using hc
          exact ⟨hk1, hcx.symm⟩
        · rintro ⟨hk1, rfl⟩
          exact ⟨by simp, k, hk1, by simp⟩
      have hcons : (keyMatches f (cd :: rest) k x = true) ↔
          ((k ∈ f cd p ∧ x = p.company_number) ∨ keyMatches f rest k x = true) := by
        unfold keyMatches
        rw [List.any_cons, Bool.or_eq_true]
        rw [show (rest.any fun cd2 =>
          match cd2.profile with
          | none => false
          | some p2 => p2.company_number == x && (f cd2 p2).any (· == k)) =
            keyMatches f rest k x from rfl]
        rw [hhead]
      rw [hcons]
      tauto

theorem mem_groupLookup_groupsOf {K : Type} [BEq K] [LawfulBEq K]
    (f : CompanyData → Profile → List K) (companies_data : List CompanyData)
    (k : K) (x : String) :
    x ∈ groupLookup (groupsOf f companies_data) k ↔
      keyMatches f companies_data k x = true := by
  unfold groupsOf
  rw [mem_groupLookup_foldData]
  simp [groupLookup]

theorem dictWF_foldKeys {K : Type} [BEq K] [LawfulBEq K]
    (keys : List K) (comp : String) (d : List (K × List String)) (h : DictWF d) :
    DictWF (keys.foldl (fun d0 k0 => dictAdd d0 k0 comp) d) := by
  induction keys generalizing d with
  | nil => exact h
  | cons k1 ks ih => exact ih _ (dictWF_dictAdd d k1 comp h)

theorem dictWF_groupsOf {K : Type} [BEq K] [LawfulBEq K]
    (f : CompanyData → Profile → List K) (companies_data : List CompanyData) :
    DictWF (groupsOf f companies_data) := by
  unfold groupsOf
  have hgen : ∀ d : List (K × List String), DictWF d →
      DictWF (companies_data.foldl (fun d0 cd =>
        match cd.profile with
        | none => d0
        | some p => (f cd p).foldl (fun d1 k1 => dictAdd d1 k1 p.company_number) d0) d) := by
    induction companies_data with
    | nil => intro d h; exact h
    | cons cd rest ih =>
      intro d h
      rw [List.foldl_cons]
      cases hp : cd.profile with
      | none => simp only [hp]; exact ih _ h
      | some p => simp only [hp]; exact ih _ (dictWF_foldKeys _ _ _ h)
  exact hgen [] ⟨List.Pairwise.nil, by simp⟩

theorem rule_proposes_iff {K : Type} [BEq K] [LawfulBEq K]
    (f : CompanyData → Profile → List K) (companies_data : List CompanyData)
    (u v : String) :
    rule_proposes f companies_data u v = true ↔
      u ≠ v ∧ ∃ k, keyMatches f companies_data k u = true ∧
        keyMatches f companies_data k v = true := by
  unfold rule_proposes
  rw [Bool.and_eq_true, List.any_eq_true, bne_iff_ne]
  constructor
  · rintro ⟨hne, cd, hcd, hmatch⟩
    cases hp : cd.profile with
    | none => simp [hp] at hmatch
    | some p =>
      simp only [hp, List.any_eq_true] at hmatch
      obtain ⟨k, hk, hb⟩ := hmatch
      rw [Bool.and_eq_true] at hb
      exact ⟨hne, k, hb.1, hb.2⟩
  · rintro ⟨hne, k, hu, hv⟩
    refine ⟨hne, ?_⟩
    have hu2 := hu
    unfold keyMatches at hu2
    rw [List.any_eq_true] at hu2
    obtain ⟨cd, hcd, hmatch⟩ := hu2
    cases hp : cd.profile with
    | none => simp [hp] at hmatch
    | some p =>
      simp only [hp, Bool.and_eq_true, List.any_eq_true] at hmatch
      obtain ⟨hc, k1, hk1, hbk⟩ := hmatch
      have hk2 : k1 = k := by simpa using hbk
      subst hk2
      refine ⟨cd, hcd, ?_⟩
      simp only [hp, List.any_eq_true]
      exact ⟨k1, hk1, by rw [Bool.and_eq_true]; exact ⟨hu, hv⟩⟩

theorem pairCovers_rule {K : Type} [BEq K] [LawfulBEq K]
    (f : CompanyData → Profile → List K) (companies_data : List CompanyData)
    (u v : String) :
    pairCovers (groupPairs (groupsOf f companies_data)) u v =
      rule_proposes f companies_data u v := by
  rw [Bool.eq_iff_iff]
  have hwf : DictWF (groupsOf f companies_data) := dictWF_groupsOf f companies_data
  rw [pairCovers_groupPairs _ (fun e he => (hwf.2 e he).1), rule_proposes_iff]
  constructor
  · rintro ⟨e, he, hu, hv, hne⟩
    refine ⟨hne, e.1, ?_, ?_⟩
    · rw [← mem_groupLookup_groupsOf, entry_lookup_of_wf _ hwf.1 e he]
      exact hu
    · rw [← mem_groupLookup_groupsOf, entry_lookup_of_wf _ hwf.1 e he]
      exact hv
  · rintro ⟨hne, k, hu, hv⟩
    rw [← mem_groupLookup_groupsOf] at hu hv
    have hnn : groupLookup (groupsOf f companies_data) k ≠ [] := by
      intro h0
      rw [h0] at hu
      simp at hu
    exact ⟨(k, groupLookup (groupsOf f companies_data) k),
      lookup_mem_of_ne_nil _ _ hnn, hu, hv, hne⟩

theorem edges_addNode (g : Graph) (n : String) (d : NodeData) :
    (g.addNode n d).edges = g.edges := by
  unfold Graph.addNode
  split <;> rfl

theorem edges_buildNodes (companies_data : List CompanyData) :
    (buildNodes companies_data).edges = [] := by
  unfold buildNodes
  have hgen : ∀ g : Graph, (companies_data.foldl (fun g0 cd =>
      match cd.profile with
      | none => g0
      | some p => g0.addNode p.company_number (nodeDataOfBundle cd p)) g).edges = g.edges := by
    induction companies_data with
    | nil => intro g; rfl
    | cons cd rest ih =>
      intro g
      rw [List.foldl_cons]
      cases hp : cd.profile with
      | none => simp only [hp]; exact ih g
      | some p => simp only [hp]; rw [ih, edges_addNode]
  rw [hgen]
  rfl

/-- The heart of claims C1, C9 and C10: the edge the built graph holds
between u and v is fully determined by which rules propose the pair,
with the later rule (director, then address, then PSC) overwriting. -/
theorem edgeLookup_build (companies_data : List CompanyData) (u v : String) :
    (build_company_network companies_data).edgeLookup u v =
      if psc_proposes companies_data u v then some ⟨"shared_psc", strength_psc⟩
      else if addr_proposes companies_data u v then some ⟨"shared_address", strength_address⟩
      else if dir_proposes companies_data u v then some ⟨"shared_director", strength_director⟩
      else none := by
  unfold build_company_network add_psc_relationships add_address_relationships
    add_director_relationships
  rw [edgeLookup_addRelationshipEdges, pairCovers_rule,
      edgeLookup_addRelationshipEdges, pairCovers_rule,
      edgeLookup_addRelationshipEdges, pairCovers_rule]
  have hbase : (buildNodes companies_data).edgeLookup u v = none := by
    unfold Graph.edgeLookup
    rw [edges_buildNodes]
    rfl
  rw [hbase]
  rfl

theorem edgesCount_updateEdges_other (es : List (String × String × EdgeData))
    (a b u v : String) (d : EdgeData) (h : sameEdgeKey a b u v = false) :
    edgesCount (updateEdges es a b d) u v = edgesCount es u v := by
  induction es with
  | nil => simp [updateEdges, edgesCount, List.filter, h]
  | cons e rest ih =>
    by_cases hm : sameEdgeKey e.1 e.2.1 a b = true
    · simp only [updateEdges, hm, if_true]
      simp only [edgesCount, List.filter_cons]
      split <;> simp
    · rw [Bool.not_eq_true] at hm
      simp only [updateEdges, hm, Bool.false_eq_true, if_false]
      simp only [edgesCount, List.filter_cons] at ih ⊢
      cases hb : sameEdgeKey e.1 e.2.1 u v <;> simp [ih]

theorem edgesCount_updateEdges_same (es : List (String × String × EdgeData))
    (a b u v : String) (d : EdgeData) (h : sameEdgeKey a b u v = true) :
    edgesCount (updateEdges es a b d) u v = max 1 (edgesCount es u v) := by
  induction es with
  | nil => simp [updateEdges, edgesCount, List.filter, h]
  | cons e rest ih =>
    by_cases hm : sameEdgeKey e.1 e.2.1 a b = true
    · have hbit : sameEdgeKey e.1 e.2.1 u v = true := by
        rw [← sameEdgeKey_congr h e.1 e.2.1]
        exact hm
      simp only [updateEdges, hm, if_true]
      simp only [edgesCount, List.filter_cons, hbit, if_true]
      simp [Nat.max_eq_right (Nat.le_add_right 1 _)]
    · rw [Bool.not_eq_true] at hm
      have hbit : sameEdgeKey e.1 e.2.1 u v = false := by
        rw [← sameEdgeKey_congr h e.1 e.2.1]
        exact hm
      simp only [updateEdges, hm, Bool.false_eq_true, if_false]
      simp only [edgesCount, List.filter_cons, hbit] at ih ⊢
      simpa using ih

theorem edgesCount_updateEdges_le_one (es : List (String × String × EdgeData))
    (a b u v : String) (d : EdgeData) (h : edgesCount es u v ≤ 1) :
    edgesCount (updateEdges es a b d) u v ≤ 1 := by
  cases hk : sameEdgeKey a b u v
  · rw [edgesCount_updateEdges_other es a b u v d hk]
    exact h
  · rw [edgesCount_updateEdges_same es a b u v d hk]
    omega

theorem edgeCount_addRelationshipEdges (pairs : List (String × String))
    (g : Graph) (d : EdgeData) (u v : String) (h : g.edgeCount u v ≤ 1) :
    (addRelationshipEdges g pairs d).edgeCount u v ≤ 1 := by
  induction pairs generalizing g with
  | nil => exact h
  | cons p rest ih =>
    have hstep : addRelationshipEdges g (p :: rest) d =
        addRelationshipEdges (g.addEdge p.1 p.2 d) rest d := rfl
    rw [hstep]
    refine ih _ ?_
    show edgesCount (g.addEdge p.1 p.2 d).edges u v ≤ 1
    have hed : (g.addEdge p.1 p.2 d).edges = updateEdges g.edges p.1 p.2 d := by
      show (updateEdges ((g.ensureNode p.1).ensureNode p.2).edges p.1 p.2 d) = _
      rw [edges_ensureNode, edges_ensureNode]
    rw [hed]
    exact edgesCount_updateEdges_le_one g.edges p.1 p.2 u v d h

/-- The canonical graph keeps at most one edge between any pair: the nx.Graph
model has no parallel typed edges. -/
theorem edgeCount_build_le_one (companies_data : List CompanyData) (u v : String) :
    (build_company_network companies_data).edgeCount u v ≤ 1 := by
  unfold build_company_network add_psc_relationships add_address_relationships
    add_director_relationships
  apply edgeCount_addRelationshipEdges
  apply edgeCount_addRelationshipEdges
  apply edgeCount_addRelationshipEdges
  show edgesCount (buildNodes companies_data).edges u v ≤ 1
  rw [edges_buildNodes]
  simp [edgesCount]

/-! ### Helper lemmas for the analyzer claims -/

theorem perm_any_eq {α : Type} {l1 l2 : List α} (h : l1.Perm l2) (p : α → Bool) :
    l1.any p = l2.any p := by
  rw [Bool.eq_iff_iff, List.any_eq_true, List.any_eq_true]
  constructor <;> rintro ⟨x, hx, hpx⟩
  · exact ⟨x, h.mem_iff.mp hx, hpx⟩
  · exact ⟨x, h.mem_iff.mpr hx, hpx⟩

theorem rule_proposes_perm {K : Type} [BEq K] [LawfulBEq K]
    (f : CompanyData → Profile → List K) {d1 d2 : List CompanyData}
    (hp : d1.Perm d2) (u v : String) :
    rule_proposes f d1 u v = rule_proposes f d2 u v := by
  rw [Bool.eq_iff_iff, rule_proposes_iff, rule_proposes_iff]
  have hk : ∀ (k : K) (c : String), keyMatches f d1 k c = keyMatches f d2 k c :=
    fun k c => perm_any_eq hp _
  constructor <;> rintro ⟨hne, k, h1, h2⟩
  · exact ⟨hne, k, by rw [← hk]; exact h1, by rw [← hk]; exact h2⟩
  · exact ⟨hne, k, by rw [hk]; exact h1, by rw [hk]; exact h2⟩

theorem lookup_isSome_of_mem_keys {β : Type} (l : List (String × β)) (n : String)
    (h : n ∈ l.map (·.1)) : (l.lookup n).isSome = true := by
  induction l with
  | nil => simp at h
  | cons e rest ih =>
    obtain ⟨k, v⟩ := e
    rw [List.map_cons, List.mem_cons] at h
    rcases h with rfl | hmem
    · simp [List.lookup]
    · by_cases hk : n == k
      · simp [List.lookup, hk]
      · rw [Bool.not_eq_true] at hk
        simp only [List.lookup, hk]
        exact ih hmem

theorem map_fst_map_pair {α β γ : Type} (l : List α) (k : α → γ) (f : α → β) :
    ((l.map (fun x => (k x, f x))).map (·.1)) = l.map k := by
  induction l with
  | nil => rfl
  | cons x xs ih => simp only [List.map_cons, ih]

theorem centrality_keys (g : Graph) (o : NxFuns) (cent : List (String × CentralityRecord))
    (h : calculate_centrality_metrics g o = .ok cent) : cent.map (·.1) = g.nodeNames := by
  unfold calculate_centrality_metrics at h
  cases hn : g.nodeNames with
  | nil =>
    rw [hn] at h
    simp only [Except.ok.injEq] at h
    rw [← h]
    rfl
  | cons a rest =>
    rw [hn] at h
    cases he : o.eigenvector_centrality_1000 with
    | none => rw [he] at h; simp at h
    | some eig =>
      rw [he] at h
      simp only [Except.ok.injEq] at h
      rw [← h, map_fst_map_pair]
      simp

theorem communities_keys (g : Graph) (o : NxFuns) (comm : List (String × PyVal))
    (h : detect_communities g o = .ok comm) : comm.map (·.1) = g.nodeNames := by
  unfold detect_communities at h
  cases hg : gn_communities g o with
  | error e => rw [hg] at h; simp at h
  | ok gn =>
    rw [hg] at h
    simp only [Except.ok.injEq] at h
    rw [← h, map_fst_map_pair]
    simp

theorem fit_transform_length (rows z : List (List Q)) (h : fit_transform rows = .ok z) :
    z.length = rows.length := by
  unfold fit_transform at h
  cases rows with
  | nil => simp at h
  | cons r rs =>
    simp only [Except.ok.injEq] at h
    rw [← h, List.length_map]

/-- Unfolding equation for the anomaly scorer on a nonempty node list with a
converged default-cap eigenvector call. -/
theorem calculate_anomaly_scores_cons (g : Graph) (o : NxFuns) (n0 : String)
    (ns : List String) (hn : g.nodeNames = n0 :: ns) (eig : String → Q)
    (he : o.eigenvector_centrality_default = some eig) :
    calculate_anomaly_scores g o =
      (match fit_transform ((n0 :: ns).map (anomaly_features g o eig)) with
       | .error e => .error e
       | .ok z =>
         match npInv (npCov z) with
         | .error e => .error e
         | .ok invCov =>
           .ok (((n0 :: ns).zip z).map (fun e =>
             (e.1, Q.sqrtModel (quadForm ((e.2.zip ((List.range ((z.headD []).length)).map
               (fun j => colMean z j))).map (fun pq => Q.sub pq.1 pq.2)) invCov))))) := by
  unfold calculate_anomaly_scores
  rw [hn, he]

theorem anomaly_keys (g : Graph) (o : NxFuns) (anom : List (String × Q))
    (h : calculate_anomaly_scores g o = .ok anom) : anom.map (·.1) = g.nodeNames := by
  cases hn : g.nodeNames with
  | nil =>
    unfold calculate_anomaly_scores at h
    rw [hn] at h
    exact Except.noConfusion h
  | cons n0 ns =>
    cases he : o.eigenvector_centrality_default with
    | none =>
      unfold calculate_anomaly_scores at h
      rw [hn, he] at h
      exact Except.noConfusion h
    | some eig =>
      rw [calculate_anomaly_scores_cons g o n0 ns hn eig he] at h
      cases hz : fit_transform ((n0 :: ns).map (anomaly_features g o eig)) with
      | error e => rw [hz] at h; exact Except.noConfusion h
      | ok z =>
        rw [hz] at h
        simp only [] at h
        cases hi : npInv (npCov z) with
        | error e => rw [hi] at h; exact Except.noConfusion h
        | ok invCov =>
          rw [hi] at h
          injection h with h2
          rw [← h2, map_fst_map_pair]
          have hlen : (n0 :: ns).length ≤ z.length := by
            rw [fit_transform_length _ _ hz, List.length_map]
          exact List.map_fst_zip _ _ hlen

theorem metrics_fields (g : Graph) (o : NxFuns) (m : NetworkMetrics)
    (h : calculate_network_metrics g o = .ok m) :
    calculate_centrality_metrics g o = .ok m.centrality_scores ∧
    detect_communities g o = .ok m.community_membership ∧
    calculate_anomaly_scores g o = .ok m.anomaly_scores ∧
    m.risk_patterns = identify_risk_patterns g o := by
  unfold calculate_network_metrics at h
  cases hc : calculate_centrality_metrics g o with
  | error e => rw [hc] at h; simp at h
  | ok cent =>
    rw [hc] at h
    cases hcm : detect_communities g o with
    | error e => rw [hcm] at h; simp at h
    | ok comm =>
      rw [hcm] at h
      cases ha : calculate_anomaly_scores g o with
      | error e => rw [ha] at h; simp at h
      | ok anom =>
        rw [ha] at h
        simp only [Except.ok.injEq] at h
        rw [← h]
        exact ⟨rfl, rfl, rfl, rfl⟩

theorem one_le_edgesCount_of_lookup (es : List (String × String × EdgeData)) (u v : String)
    (h : (lookupEdges es u v).isSome = true) : 1 ≤ edgesCount es u v := by
  induction es with
  | nil => simp [lookupEdges] at h
  | cons e rest ih =>
    by_cases hk : sameEdgeKey e.1 e.2.1 u v = true
    · simp [edgesCount, List.filter_cons, hk]
    · rw [Bool.not_eq_true] at hk
      simp only [lookupEdges, hk, Bool.false_eq_true, if_false] at h
      simp only [edgesCount, List.filter_cons, hk, Bool.false_eq_true, if_false]
      exact ih h

/-! ## Claim theorems -/

/-- C1, counterexample: two bundles sharing both a director and a
registered-office address end with a single edge typed shared_address
(strength 0.6) in the built graph; the shared_director edge the director
rule proposed for the same pair is not retained alongside it, refuting the
claim that one typed edge per proposing rule is kept. -/
theorem C1_counterexample_parallel_edges_lost :
    dir_proposes [bundleA, bundleB] "A1" "B2" = true ∧
    addr_proposes [bundleA, bundleB] "A1" "B2" = true ∧
    (build_company_network [bundleA, bundleB]).edges =
      [("A1", "B2", ⟨"shared_address", strength_address⟩)] := by decide

/-- C1, amended: the canonical graph is a simple nx.Graph holding at most
one edge per unordered pair; when several inference rules propose an edge
for the same pair, the surviving relationship_type and strength are those
of the last proposing rule in the fixed order shared director, shared
address, shared PSC, the earlier typed edges being overwritten. -/
theorem C1_amended_single_typed_edge (companies_data : List CompanyData) (u v : String) :
    (build_company_network companies_data).edgeCount u v ≤ 1 ∧
    (build_company_network companies_data).edgeLookup u v =
      (if psc_proposes companies_data u v then some ⟨"shared_psc", strength_psc⟩
       else if addr_proposes companies_data u v then some ⟨"shared_address", strength_address⟩
       else if dir_proposes companies_data u v then some ⟨"shared_director", strength_director⟩
       else none) :=
  ⟨edgeCount_build_le_one companies_data u v, edgeLookup_build companies_data u v⟩

/-- C9: permuting the input bundles leaves the edge set unchanged: for
every unordered pair, the typed weighted edge the built graph holds (the
full triple of pair, relationship_type and strength, the graph being
simple) is identical under both orderings. -/
theorem C9_edge_set_permutation_invariant (d1 d2 : List CompanyData)
    (hp : d1.Perm d2) (u v : String) :
    (build_company_network d1).edgeLookup u v =
      (build_company_network d2).edgeLookup u v := by
  have h1 : psc_proposes d1 u v = psc_proposes d2 u v :=
    rule_proposes_perm pscKeysOf hp u v
  have h2 : addr_proposes d1 u v = addr_proposes d2 u v :=
    rule_proposes_perm addressKeysOf hp u v
  have h3 : dir_proposes d1 u v = dir_proposes d2 u v :=
    rule_proposes_perm directorKeysOf hp u v
  rw [edgeLookup_build, edgeLookup_build, h1, h2, h3]

theorem C9_edge_set_permutation_invariant_witness :
    ([bundleA, bundleB].Perm [bundleB, bundleA]) ∧
    (build_company_network [bundleA, bundleB]).edgeLookup "A1" "B2" =
      (build_company_network [bundleB, bundleA]).edgeLookup "A1" "B2" :=
  ⟨by decide, C9_edge_set_permutation_invariant _ _ (by decide) "A1" "B2"⟩

/-- C10: when a pair of entities shares a director and an address, the
built graph holds exactly one edge for the pair, typed shared_address with
strength 0.6; when the pair additionally shares a corporate-entity PSC, the
single edge is shared_psc with strength 0.8 — each later rule in the fixed
order overwrites the edge of the earlier one. -/
theorem C10_last_rule_wins (companies_data : List CompanyData) (u v : String)
    (hd : dir_proposes companies_data u v = true)
    (ha : addr_proposes companies_data u v = true) :
    (psc_proposes companies_data u v = false →
      (build_company_network companies_data).edgeLookup u v =
        some ⟨"shared_address", strength_address⟩ ∧
      (build_company_network companies_data).edgeCount u v = 1) ∧
    (psc_proposes companies_data u v = true →
      (build_company_network companies_data).edgeLookup u v =
        some ⟨"shared_psc", strength_psc⟩ ∧
      (build_company_network companies_data).edgeCount u v = 1) := by
  have hchar := edgeLookup_build companies_data u v
  have hle := edgeCount_build_le_one companies_data u v
  constructor
  · intro hp
    have hlook : (build_company_network companies_data).edgeLookup u v =
        some ⟨"shared_address", strength_address⟩ := by
      rw [hchar]
      simp [hp, ha]
    refine ⟨hlook, ?_⟩
    have hsome : (lookupEdges (build_company_network companies_data).edges u v).isSome
        = true := by
      rw [show lookupEdges (build_company_network companies_data).edges u v =
        (build_company_network companies_data).edgeLookup u v from rfl, hlook]
      rfl
    have hge := one_le_edgesCount_of_lookup (build_company_network companies_data).edges
      u v hsome
    have hle2 : edgesCount (build_company_network companies_data).edges u v ≤ 1 := hle
    show edgesCount (build_company_network companies_data).edges u v = 1
    omega
  · intro hp
    have hlook : (build_company_network companies_data).edgeLookup u v =
        some ⟨"shared_psc", strength_psc⟩ := by
      rw [hchar]
      simp [hp]
    refine ⟨hlook, ?_⟩
    have hsome : (lookupEdges (build_company_network companies_data).edges u v).isSome
        = true := by
      rw [show lookupEdges (build_company_network companies_data).edges u v =
        (build_company_network companies_data).edgeLookup u v from rfl, hlook]
      rfl
    have hge := one_le_edgesCount_of_lookup (build_company_network companies_data).edges
      u v hsome
    have hle2 : edgesCount (build_company_network companies_data).edges u v ≤ 1 := hle
    show edgesCount (build_company_network companies_data).edges u v = 1
    omega

theorem C10_last_rule_wins_witness :
    dir_proposes [bundleC, bundleD] "C3" "D4" = true ∧
    addr_proposes [bundleC, bundleD] "C3" "D4" = true ∧
    psc_proposes [bundleC, bundleD] "C3" "D4" = true ∧
    (build_company_network [bundleC, bundleD]).edgeLookup "C3" "D4" =
      some ⟨"shared_psc", strength_psc⟩ ∧
    (build_company_network [bundleC, bundleD]).edgeCount "C3" "D4" = 1 := by
  have h := C10_last_rule_wins [bundleC, bundleD] "C3" "D4" (by decide) (by decide)
  have h2 := h.2 (by decide)
  exact ⟨by decide, by decide, by decide, h2.1, h2.2⟩

/-- C2: the failing run of _detect_communities. On the two-triangle graph
gC the three algorithms find the same two communities, louvain merely
numbering them in the opposite order. The claim's consensus (the three
labels per node, most frequent first, then precedence) assigns community 1
to D, E and F; the code assigns 0 to every node, because the
label-propagation dict it consults is keyed by enumerate indices, so the
string-node lookup always takes the default 0 and the vote for D is
[0, 0, 1] instead of [0, 1, 1]. -/
theorem C2_label_prop_enumerate_bug :
    detect_communities gC oC =
      .ok [("A", PyVal.pyInt 0), ("B", PyVal.pyInt 0), ("C", PyVal.pyInt 0),
           ("D", PyVal.pyInt 0), ("E", PyVal.pyInt 0), ("F", PyVal.pyInt 0)] ∧
    spec_detect_communities gC oC =
      [("A", 0), ("B", 0), ("C", 0), ("D", 1), ("E", 1), ("F", 1)] :=
  ⟨by decide, by decide⟩

/-- C5, counterexample: on the empty graph the analysis does not return an
empty NetworkMetrics bundle; it raises, because the anomaly scorer hands
the empty feature list to StandardScaler.fit_transform. -/
theorem C5_counterexample_empty_graph :
    calculate_network_metrics Graph.empty oE = .error .emptyFitInput := by decide

/-- C5, amended: on the empty graph the centrality, community, risk
pattern, temporal and cycle components all yield empty outputs, but
_calculate_anomaly_scores raises on the empty feature list, so
calculate_network_metrics fails on the empty graph instead of returning an
empty bundle. -/
theorem C5_amended_empty_graph_behavior :
    calculate_centrality_metrics Graph.empty oE = .ok [] ∧
    detect_communities Graph.empty oE = .ok [] ∧
    identify_risk_patterns Graph.empty oE = [] ∧
    analyze_temporal_patterns Graph.empty = [] ∧
    detect_suspicious_cycles Graph.empty oE = [] ∧
    calculate_anomaly_scores Graph.empty oE = .error .emptyFitInput ∧
    calculate_network_metrics Graph.empty oE = .error .emptyFitInput := by decide

/-- C6, counterexample: a graph on which nx.eigenvector_centrality fails to
converge (the oracle models its documented PowerIterationFailedConvergence)
makes the whole analysis run abort; no best-effort value is produced. -/
theorem C6_counterexample_nonconvergence_aborts :
    g6.nodeNames = ["m1"] ∧
    o6.eigenvector_centrality_1000 = none ∧
    calculate_network_metrics g6 o6 = .error .powerIterationFailed := by
  exact ⟨by decide, rfl, by decide⟩

/-- C6, amended: on any nonempty graph, if the max_iter=1000 eigenvector
call raises PowerIterationFailedConvergence, the exception propagates out
of _calculate_centrality_metrics and calculate_network_metrics aborts. -/
theorem C6_amended_nonconvergence_propagates (g : Graph) (o : NxFuns)
    (hne : g.nodeNames ≠ []) (he : o.eigenvector_centrality_1000 = none) :
    calculate_network_metrics g o = .error .powerIterationFailed := by
  cases hn : g.nodeNames with
  | nil => exact absurd hn hne
  | cons a rest =>
    unfold calculate_network_metrics calculate_centrality_metrics
    rw [hn, he]

theorem C6_amended_nonconvergence_propagates_witness :
    g6.nodeNames ≠ [] ∧ o6.eigenvector_centrality_1000 = none ∧
    calculate_network_metrics g6 o6 = .error .powerIterationFailed :=
  ⟨by decide, rfl, C6_amended_nonconvergence_propagates g6 o6 (by decide) rfl⟩

/-- C3: whenever calculate_network_metrics returns a bundle, every node of
the graph has an entry in centrality_scores, community_membership and
anomaly_scores. -/
theorem C3_metrics_completeness (g : Graph) (o : NxFuns) (m : NetworkMetrics)
    (h : calculate_network_metrics g o = .ok m) (n : String) (hn : n ∈ g.nodeNames) :
    (m.centrality_scores.lookup n).isSome = true ∧
    (m.community_membership.lookup n).isSome = true ∧
    (m.anomaly_scores.lookup n).isSome = true := by
  obtain ⟨hc, hcm, ha, hrp⟩ := metrics_fields g o m h
  refine ⟨?_, ?_, ?_⟩
  · exact lookup_isSome_of_mem_keys _ n (by rw [centrality_keys g o _ hc]; exact hn)
  · exact lookup_isSome_of_mem_keys _ n (by rw [communities_keys g o _ hcm]; exact hn)
  · exact lookup_isSome_of_mem_keys _ n (by rw [anomaly_keys g o _ ha]; exact hn)

theorem C3_metrics_completeness_witness :
    calculate_network_metrics gW oW = .ok (metricsOrEmpty gW oW) ∧
    "n1" ∈ gW.nodeNames ∧
    ((metricsOrEmpty gW oW).centrality_scores.lookup "n1").isSome = true ∧
    ((metricsOrEmpty gW oW).community_membership.lookup "n1").isSome = true ∧
    ((metricsOrEmpty gW oW).anomaly_scores.lookup "n1").isSome = true := by
  have hok : calculate_network_metrics gW oW = .ok (metricsOrEmpty gW oW) := by decide
  have h := C3_metrics_completeness gW oW (metricsOrEmpty gW oW) hok "n1" (by decide)
  exact ⟨hok, by decide, h.1, h.2.1, h.2.2⟩

/-- C7: when the sample covariance matrix of the standardized feature
matrix is singular (determinant zero), _calculate_anomaly_scores fails
with the singular-matrix condition (numpy LinAlgError from inv) and
returns no anomaly scores. -/
theorem C7_singular_covariance_error (g : Graph) (o : NxFuns) (eig : String → Q)
    (z : List (List Q)) (he : o.eigenvector_centrality_default = some eig)
    (hz : fit_transform (g.nodeNames.map (anomaly_features g o eig)) = .ok z)
    (hdet : (detL (npCov z)).eqB Q.zero = true) :
    calculate_anomaly_scores g o = .error .singularMatrix := by
  cases hn : g.nodeNames with
  | nil =>
    rw [hn] at hz
    simp [fit_transform] at hz
  | cons n0 ns =>
    rw [hn] at hz
    rw [calculate_anomaly_scores_cons g o n0 ns hn eig he, hz]
    simp only []
    unfold npInv
    rw [if_pos hdet]

theorem C7_singular_covariance_error_witness :
    oS.eigenvector_centrality_default = some eigS ∧
    fit_transform (gS.nodeNames.map (anomaly_features gS oS eigS)) =
      .ok (ftOrNil gS oS eigS) ∧
    (detL (npCov (ftOrNil gS oS eigS))).eqB Q.zero = true ∧
    calculate_anomaly_scores gS oS = .error .singularMatrix := by
  have hft : fit_transform (gS.nodeNames.map (anomaly_features gS oS eigS)) =
      .ok (ftOrNil gS oS eigS) := by decide
  have hdet : (detL (npCov (ftOrNil gS oS eigS))).eqB Q.zero = true := by decide
  exact ⟨rfl, hft, hdet, C7_singular_covariance_error gS oS eigS _ rfl hft hdet⟩

theorem isEmpty_true_iff {α : Type} (l : List α) : l.isEmpty = true ↔ l = [] := by
  cases l <;> simp

theorem if_singleton_eq_nil {α : Type} {p : Prop} [Decidable p] {a : α}
    (h : (if p then [a] else []) = []) : ¬ p := by
  intro hp
  rw [if_pos hp] at h
  exact absurd h (by simp)

/-- Lowering the threshold can only keep a node's risk-factor list
nonempty: every threshold comparison is monotone and the community and
pattern factors do not depend on the threshold. -/
theorem riskFactors_mono (m : NetworkMetrics) (n : String) {t1 t2 : Q}
    (ht : Q.ltB t1 t2 = true) (h2 : riskFactors m n t2 ≠ []) :
    riskFactors m n t1 ≠ [] := by
  intro h1
  apply h2
  unfold riskFactors at h1 ⊢
  rw [List.append_eq_nil, List.append_eq_nil, List.append_eq_nil, List.append_eq_nil] at h1
  obtain ⟨⟨⟨⟨hA, hB⟩, hC⟩, hD⟩, hE⟩ := h1
  rw [if_neg (fun hx => if_singleton_eq_nil hA (Q.ltB_trans ht hx)),
      if_neg (fun hx => if_singleton_eq_nil hB (Q.ltB_trans ht hx)),
      hC, hD,
      if_neg (fun hx => if_singleton_eq_nil hE (Q.ltB_trans ht hx))]
  rfl

/-- C4: whenever both runs of get_high_risk_entities succeed and t1 < t2,
every entity flagged at the higher threshold t2 is also flagged at the
lower threshold t1. -/
theorem C4_threshold_monotonicity (g : Graph) (o : NxFuns) (t1 t2 : Q)
    (ht : Q.ltB t1 t2 = true) (l1 l2 : List HighRiskEntry)
    (h1 : get_high_risk_entities g o t1 = .ok l1)
    (h2 : get_high_risk_entities g o t2 = .ok l2)
    (n : String) (hn : n ∈ l2.map (·.entity)) : n ∈ l1.map (·.entity) := by
  unfold get_high_risk_entities at h1 h2
  cases hm : calculate_network_metrics g o with
  | error e => rw [hm] at h1; exact absurd h1 (by simp)
  | ok m =>
    rw [hm] at h1 h2
    simp only [Except.ok.injEq] at h1 h2
    rw [← h1]
    rw [← h2] at hn
    rw [List.mem_map] at hn ⊢
    obtain ⟨x, hx, hxe⟩ := hn
    have hx2 : x ∈ g.nodeNames.filterMap (highRiskEntry m t2) :=
      (List.perm_insertionSort _ _).mem_iff.mp hx
    rw [List.mem_filterMap] at hx2
    obtain ⟨y, hy, hfy⟩ := hx2
    unfold highRiskEntry at hfy
    by_cases hemp : (riskFactors m y t2).isEmpty = true
    · rw [if_pos hemp] at hfy
      exact absurd hfy (by simp)
    · rw [if_neg hemp] at hfy
      injection hfy with hfy
      have hne2 : riskFactors m y t2 ≠ [] := by
        intro h0
        exact hemp ((isEmpty_true_iff _).mpr h0)
      have hne1 := riskFactors_mono m y ht hne2
      refine ⟨⟨y, riskFactors m y t1, lookupD m.anomaly_scores y Q.zero,
              lookupD m.centrality_scores y defaultCentrality⟩, ?_, ?_⟩
      · apply (List.perm_insertionSort _ _).mem_iff.mpr
        rw [List.mem_filterMap]
        refine ⟨y, hy, ?_⟩
        unfold highRiskEntry
        rw [if_neg (fun hx1 => hne1 ((isEmpty_true_iff _).mp hx1))]
      · rw [← hxe, ← hfy]

theorem C4_threshold_monotonicity_witness :
    Q.ltB (qTenths 5) (qTenths 8) = true ∧
    get_high_risk_entities gW oW (qTenths 5) = .ok (hrOrEmpty gW oW (qTenths 5)) ∧
    get_high_risk_entities gW oW (qTenths 8) = .ok (hrOrEmpty gW oW (qTenths 8)) ∧
    "n1" ∈ (hrOrEmpty gW oW (qTenths 8)).map (·.entity) ∧
    "n1" ∈ (hrOrEmpty gW oW (qTenths 5)).map (·.entity) := by
  have h1 : get_high_risk_entities gW oW (qTenths 5) =
      .ok (hrOrEmpty gW oW (qTenths 5)) := by decide
  have h2 : get_high_risk_entities gW oW (qTenths 8) =
      .ok (hrOrEmpty gW oW (qTenths 8)) := by decide
  have hmem : "n1" ∈ (hrOrEmpty gW oW (qTenths 8)).map (·.entity) := by decide
  exact ⟨by decide, h1, h2, hmem,
    C4_threshold_monotonicity gW oW (qTenths 5) (qTenths 8) (by decide) _ _ h1 h2 "n1" hmem⟩

theorem involved_ne_fixed (ty : String) :
    ("involved_in_" ++ ty) ≠ "high_betweenness_centrality" ∧
    ("involved_in_" ++ ty) ≠ "high_pagerank" ∧
    ("involved_in_" ++ ty) ≠ "isolated_community" ∧
    ("involved_in_" ++ ty) ≠ "high_anomaly_score" := by
  refine ⟨fun h => ?_, fun h => ?_, fun h => ?_, fun h => ?_⟩ <;>
  · have hd := congrArg String.data h
    rw [String.data_append] at hd
    have h2 := congrArg (fun l => List.take 2 l) hd
    have h3 : (['i', 'n'] : List Char) = _ := h2
    exact absurd h3 (by decide)

theorem involved_in_inj {a b : String}
    (h : ("involved_in_" ++ a) = "involved_in_" ++ b) : a = b := by
  have hd := congrArg String.data h
  rw [String.data_append, String.data_append] at hd
  have hab : a.data = b.data := List.append_cancel_left hd
  cases a
  cases b
  exact congrArg String.mk hab

/-- C8, amended: a factor of the form involved_in_<type> appears in a
node's risk-factor list exactly when some record of risk_patterns carries
that type and lists the node under its entities key; the hub_spoke records
the source builds carry hub and spokes fields but no entities key, so their
entities are read as the empty default — neither the hub nor the spokes
ever receive the factor — and temporal bulk_incorporation records are not
scanned at all, the loop ranging over risk_patterns only. -/
theorem C8_amended_involvement_iff (m : NetworkMetrics) (n : String) (thr : Q) (ty : String) :
    (("involved_in_" ++ ty) ∈ riskFactors m n thr ↔
      ∃ p ∈ m.risk_patterns, (pGetEntities p).contains n = true ∧ pGetStr p "type" = ty) ∧
    (∀ hub spokes, pGetEntities
      [("type", PVal.s "hub_spoke"), ("hub", PVal.s hub), ("spokes", PVal.l spokes),
       ("risk_level", PVal.s "medium")] = []) := by
  constructor
  · unfold riskFactors
    constructor
    · intro hmem
      rw [List.mem_append] at hmem
      rcases hmem with hmem | hE
      rotate_left
      · exfalso
        by_cases hc : Q.ltB thr (lookupD m.anomaly_scores n Q.zero) = true
        · rw [if_pos hc, List.mem_singleton] at hE
          exact (involved_ne_fixed ty).2.2.2 hE
        · rw [if_neg hc] at hE
          simp at hE
      rw [List.mem_append] at hmem
      rcases hmem with hmem | hD
      rotate_left
      · rw [List.mem_filterMap] at hD
        obtain ⟨p, hp, hfp⟩ := hD
        by_cases hcont : (pGetEntities p).contains n = true
        · rw [if_pos hcont] at hfp
          injection hfp with hfp
          exact ⟨p, hp, hcont, involved_in_inj hfp⟩
        · rw [if_neg hcont] at hfp
          exact absurd hfp (by simp)
      rw [List.mem_append] at hmem
      rcases hmem with hmem | hC
      rotate_left
      · exfalso
        by_cases hc : m.community_membership.countP
            (fun e => e.2 == lookupD m.community_membership n (PyVal.pyInt 0)) < 3
        · rw [if_pos hc, List.mem_singleton] at hC
          exact (involved_ne_fixed ty).2.2.1 hC
        · rw [if_neg hc] at hC
          simp at hC
      rw [List.mem_append] at hmem
      rcases hmem with hA | hB
      · exfalso
        by_cases hc : Q.ltB thr
            (lookupD m.centrality_scores n defaultCentrality).betweenness = true
        · rw [if_pos hc, List.mem_singleton] at hA
          exact (involved_ne_fixed ty).1 hA
        · rw [if_neg hc] at hA
          simp at hA
      · exfalso
        by_cases hc : Q.ltB thr
            (lookupD m.centrality_scores n defaultCentrality).pagerank = true
        · rw [if_pos hc, List.mem_singleton] at hB
          exact (involved_ne_fixed ty).2.1 hB
        · rw [if_neg hc] at hB
          simp at hB
    · rintro ⟨p, hp, hcont, hty⟩
      rw [List.mem_append]
      left
      rw [List.mem_append]
      right
      rw [List.mem_filterMap]
      refine ⟨p, hp, ?_⟩
      rw [if_pos hcont, hty]
  · intro hub spokes
    rfl

set_option maxHeartbeats 4000000 in
/-- C8, counterexample: on the hub-and-spoke graph g8 the analyzer builds
exactly one risk pattern, the hub_spoke record for H, yet no entry of the
ranked output carries the factor involved_in_hub_spoke — in particular H
itself appears in the output (via its betweenness) without that factor,
although the claim demands it as hub of the pattern. -/
theorem C8_counterexample_hub_spoke_not_flagged :
    identify_risk_patterns g8 o8 =
      [[("type", PVal.s "hub_spoke"), ("hub", PVal.s "H"),
        ("spokes", PVal.l ["S1", "S2", "S3"]), ("risk_level", PVal.s "medium")]] ∧
    get_high_risk_entities g8 o8 default_risk_threshold =
      .ok (hrOrEmpty g8 o8 default_risk_threshold) ∧
    "H" ∈ (hrOrEmpty g8 o8 default_risk_threshold).map (·.entity) ∧
    (hrOrEmpty g8 o8 default_risk_threshold).all
      (fun e => !(e.risk_factors.contains "involved_in_hub_spoke")) = true := by
  exact ⟨by decide, by decide, by decide, by decide⟩

end NiMu

